import Mathlib

/-!
Verification of the TicTacToe core (board logic and AI decision engine).

The definitions below are a shallow embedding of `src/logic.py` and
`src/ai.py`:

* Python's cell strings `""`, `"X"`, `"O"` become `Option Player`
  (`none` is the empty cell).
* The mutable `Board` object becomes a `Board` structure; the in-place
  mutation `board.grid[row][col] = v` used by the AI simulation code
  becomes the pure update `setCell`, and functions that mutate the board
  (the AI `choose_move`/`minimax` loops with their place/undo pattern)
  are embedded state-passing style, returning the final board alongside
  their result so that the undo discipline is visible and provable.
* Python's wall-clock cutoff predicate `max_time > 0 and
  time.time() - start_time > max_time` is embedded as a boolean `timeUp`
  passed unchanged through the recursion: it models the two regimes the
  specification reasons about, `max_time = 0` (the predicate is
  identically false) and an effectively-zero budget (identically true).
* Python floats appear only as the scores `1`, `0`, `-1` and the
  sentinels `float('inf')`/`float('-inf')`; they are embedded as the
  `Score` type with constructors `fin`, `pinf`, `ninf` and the exact
  comparison behaviour of IEEE infinities against finite values.
* `random.choice(available_moves)` is embedded with an explicit index
  oracle `pick : Nat`, covering every outcome the library call can have.
* Recursion in `minimax` is by a fuel parameter; every theorem about it
  supplies fuel at least the number of empty cells, which is what the
  Python recursion (which terminates because each ply fills a cell)
  actually consumes.
-/

namespace TTT

/-- A player's mark: Python's `"X"` / `"O"` strings. -/
inductive Player where
  | X : Player
  | O : Player
deriving DecidableEq, Repr

/-- `'O' if mark == 'X' else 'X'` — the opposing mark. -/
def Player.other : Player → Player
  | Player.X => Player.O
  | Player.O => Player.X

/-- The board state of `src/logic.py`: dimension, grid (row-major list of
rows, a cell is `none` when the Python cell is `""`), and the mark to move. -/
structure Board where
  size : Nat
  grid : List (List (Option Player))
  turn : Player
deriving DecidableEq, Repr

/-- `Board.__init__`: an empty `size × size` grid, `X` to move. -/
def Board.init (size : Nat) : Board :=
  { size := size
    grid := List.replicate size (List.replicate size none)
    turn := Player.X }

/-- `Board.reset`: clears the grid and sets the turn back to `X`. -/
def Board.reset (b : Board) : Board :=
  Board.init b.size

/-- Read `grid[row][col]` (out-of-range reads return `none`; every read in
the source is guarded to be in range). -/
def cellAt (b : Board) (r c : Nat) : Option Player :=
  (b.grid.getD r []).getD c none

/-- The raw cell assignment `board.grid[row][col] = v` used by `make_move`
and by the AI simulation code. -/
def setCell (b : Board) (r c : Nat) (v : Option Player) : Board :=
  { b with grid := b.grid.set r ((b.grid.getD r []).set c v) }

/-- `Board.is_full`: no empty cell remains anywhere in the grid. -/
def Board.is_full (b : Board) : Bool :=
  b.grid.all (fun row => row.all (fun cell => !(cell == none)))

/-- `Board.is_valid_move`: both coordinates in `[0, size)` and the cell is
empty.  Coordinates are integers, as in Python. -/
def Board.is_valid_move (b : Board) (row col : Int) : Bool :=
  decide (0 ≤ row) && decide (row < (b.size : Int)) &&
  decide (0 ≤ col) && decide (col < (b.size : Int)) &&
  (cellAt b row.toNat col.toNat == none)

/-- `Board.make_move`: on a valid move, place the current turn's mark and
flip the turn; otherwise report failure and leave the board unchanged.
Returns the Python `bool` together with the post-call board state. -/
def Board.make_move (b : Board) (row col : Int) : Bool × Board :=
  if b.is_valid_move row col then
    (true, { setCell b row.toNat col.toNat (some b.turn) with turn := b.turn.other })
  else
    (false, b)

/-- The row test inside `check_winner`'s scan:
`grid[idx][0] != "" and all(grid[idx][col] == grid[idx][0] ...)`. -/
def rowCheck (b : Board) (idx : Nat) : Option Player :=
  if !(cellAt b idx 0 == none) &&
      (List.range b.size).all (fun col => cellAt b idx col == cellAt b idx 0) then
    cellAt b idx 0
  else
    none

/-- The column test inside `check_winner`'s scan:
`grid[0][idx] != "" and all(grid[row][idx] == grid[0][idx] ...)`. -/
def colCheck (b : Board) (idx : Nat) : Option Player :=
  if !(cellAt b 0 idx == none) &&
      (List.range b.size).all (fun row => cellAt b row idx == cellAt b 0 idx) then
    cellAt b 0 idx
  else
    none

/-- One iteration of `check_winner`'s loop: the row test for `idx`, then
the column test for `idx`. -/
def lineCheck (b : Board) (idx : Nat) : Option Player :=
  match rowCheck b idx with
  | some w => some w
  | none => colCheck b idx

/-- The main-diagonal test of `check_winner`. -/
def diagCheck (b : Board) : Option Player :=
  if !(cellAt b 0 0 == none) &&
      (List.range b.size).all (fun i => cellAt b i i == cellAt b 0 0) then
    cellAt b 0 0
  else
    none

/-- The anti-diagonal test of `check_winner`. -/
def antiCheck (b : Board) : Option Player :=
  if !(cellAt b 0 (b.size - 1) == none) &&
      (List.range b.size).all
        (fun i => cellAt b i (b.size - 1 - i) == cellAt b 0 (b.size - 1)) then
    cellAt b 0 (b.size - 1)
  else
    none

/-- `Board.check_winner`: for `idx` in `range(size)` check row `idx` then
column `idx`, returning at the first complete line; then the main
diagonal; then the anti-diagonal; else no winner. -/
def Board.check_winner (b : Board) : Option Player :=
  match (List.range b.size).findSome? (lineCheck b) with
  | some w => some w
  | none =>
    match diagCheck b with
    | some w => some w
    | none => antiCheck b

/-- `Board.get_empty_cells`: all `(row, col)` with an empty cell, in
row-major order. -/
def Board.get_empty_cells (b : Board) : List (Nat × Nat) :=
  b.grid.enum.flatMap (fun p =>
    p.2.enum.filterMap (fun q => if q.2 = none then some (p.1, q.1) else none))

/-- The class invariant maintained by `Board.__init__` / `reset` /
`make_move` and by the AI's place-and-undo simulation: the grid is a
`size × size` list of lists. -/
def wf (b : Board) : Bool :=
  (b.grid.length == b.size) && b.grid.all (fun row => row.length == b.size)

/-- Number of empty cells on the board; the measure consumed by the
`minimax` recursion. -/
def noneCount (b : Board) : Nat :=
  (b.grid.map (fun row => row.countP (fun cell => cell == none))).sum

/-! ## The AI module (`src/ai.py`) -/

/-- The score values flowing through `minimax` and `choose_move`: the
integers `1`, `0`, `-1` plus the Python float sentinels
`float('-inf')` / `float('inf')` used to initialise the running best. -/
inductive Score where
  | ninf : Score
  | fin (n : Int) : Score
  | pinf : Score
deriving DecidableEq, Repr

/-- Python's `<` on the values that occur: `-inf` below every finite
value, `+inf` above, finite values by integer comparison. -/
def Score.lt : Score → Score → Bool
  | Score.ninf, Score.ninf => false
  | Score.ninf, Score.fin _ => true
  | Score.ninf, Score.pinf => true
  | Score.fin _, Score.ninf => false
  | Score.fin a, Score.fin b => decide (a < b)
  | Score.fin _, Score.pinf => true
  | Score.pinf, _ => false

/-- `a ≤ b` on scores, definable from `lt` because the order is total. -/
def Score.le (a b : Score) : Bool := !(Score.lt b a)

/-- The row-major sequence of coordinates produced by
`for row in range(size): for col in range(size)`. -/
def allCells (size : Nat) : List (Nat × Nat) :=
  (List.range size).flatMap (fun r => (List.range size).map (fun c => (r, c)))

/-- `RandomAIPlayer.choose_move`: collect the valid moves in row-major
order; `None` when there are none, otherwise one of them.  The library
call `random.choice` is embedded by the index oracle `pick`, which ranges
over every choice the call can make.  The sleep that simulates thinking
time has no observable effect on the board or the move and is omitted.
The board is never mutated. -/
def RandomAIPlayer.choose_move (pick : Nat) (b : Board) : Option (Nat × Nat) :=
  let available_moves := (allCells b.size).filter (fun rc => b.is_valid_move rc.1 rc.2)
  if available_moves.isEmpty then none
  else some (available_moves.getD (pick % available_moves.length) (0, 0))

/-- One of `MediumAIPlayer.choose_move`'s two scan loops: walk the cells
in row-major order and, on each valid cell, place `m`, test
`check_winner() == m`, then undo; return at the first hit.  The board is
threaded to make the place/undo mutation explicit. -/
def MediumAIPlayer.winScan (m : Player) :
    List (Nat × Nat) → Board → Option (Nat × Nat) × Board
  | [], b => (none, b)
  | rc :: rest, b =>
    if b.is_valid_move rc.1 rc.2 then
      let b1 := setCell b rc.1 rc.2 (some m)
      if b1.check_winner == some m then
        (some rc, setCell b1 rc.1 rc.2 none)
      else
        MediumAIPlayer.winScan m rest (setCell b1 rc.1 rc.2 none)
    else
      MediumAIPlayer.winScan m rest b

/-- `MediumAIPlayer.choose_move`: try to complete an own line, then to
block the opponent's, else fall back to the random strategy. -/
def MediumAIPlayer.choose_move (mark : Player) (pick : Nat) (b : Board) :
    Option (Nat × Nat) × Board :=
  match MediumAIPlayer.winScan mark (allCells b.size) b with
  | (some rc, b1) => (some rc, b1)
  | (none, b1) =>
    match MediumAIPlayer.winScan mark.other (allCells b1.size) b1 with
    | (some rc, b2) => (some rc, b2)
    | (none, b2) => (RandomAIPlayer.choose_move pick b2, b2)

/-- The `for row ... for col ...` loop body of `HardAIPlayer.minimax`:
place the current ply's mark on each valid cell, evaluate the child with
`next`, undo, and keep the greatest (maximising) or least (minimising)
child score.  `next` is the recursive call at the next ply. -/
def minimaxScan (next : Board → Score × Board) (current : Player) (isMax : Bool) :
    List (Nat × Nat) → Score → Board → Score × Board
  | [], best, b => (best, b)
  | rc :: rest, best, b =>
    if b.is_valid_move rc.1 rc.2 then
      let b1 := setCell b rc.1 rc.2 (some current)
      let sb := next b1
      let b2 := setCell sb.2 rc.1 rc.2 none
      let best1 :=
        if isMax then (if best.lt sb.1 then sb.1 else best)
        else (if sb.1.lt best then sb.1 else best)
      minimaxScan next current isMax rest best1 b2
    else
      minimaxScan next current isMax rest best b

/-- `HardAIPlayer.minimax`: time cutoff, terminal tests, then the
maximising/minimising scan over all empty cells.  `timeUp` models the
wall-clock predicate (see the header); `fuel` bounds the recursion depth
and is always supplied at least the number of empty cells, which is what
the Python recursion consumes. -/
def HardAIPlayer.minimax (mark : Player) (timeUp : Bool) :
    Nat → Board → Bool → Score × Board
  | 0, b, _ => (Score.fin 0, b)
  | fuel + 1, b, isMax =>
    if timeUp then (Score.fin 0, b)
    else
      match b.check_winner with
      | some w => (if w = mark then Score.fin 1 else Score.fin (-1), b)
      | none =>
        if b.is_full then (Score.fin 0, b)
        else
          let current := if isMax then mark else mark.other
          let init := if isMax then Score.ninf else Score.pinf
          minimaxScan (fun b1 => HardAIPlayer.minimax mark timeUp fuel b1 (!isMax))
            current isMax (allCells b.size) init b

/-- The root loop of `HardAIPlayer.choose_move`: place `mark` on each
valid cell, evaluate with `next` (minimax from the opponent's ply), undo,
and keep the first cell with the strictly greatest score. -/
def rootScan (next : Board → Score × Board) (mark : Player) :
    List (Nat × Nat) → Score → Option (Nat × Nat) → Board →
    Option (Nat × Nat) × Board
  | [], _, bestMove, b => (bestMove, b)
  | rc :: rest, best, bestMove, b =>
    if b.is_valid_move rc.1 rc.2 then
      let b1 := setCell b rc.1 rc.2 (some mark)
      let sb := next b1
      let b2 := setCell sb.2 rc.1 rc.2 none
      if best.lt sb.1 then rootScan next mark rest sb.1 (some rc) b2
      else rootScan next mark rest best bestMove b2
    else
      rootScan next mark rest best bestMove b

/-- `HardAIPlayer.choose_move`: run the root scan from `best = -inf`,
`best_move = None`. -/
def HardAIPlayer.choose_move (mark : Player) (timeUp : Bool) (b : Board) :
    Option (Nat × Nat) × Board :=
  rootScan (fun b1 => HardAIPlayer.minimax mark timeUp (b.size * b.size) b1 false)
    mark (allCells b.size) Score.ninf none b

/-- The three strategies the factory can produce. -/
inductive AIStrategy where
  | random : AIStrategy
  | medium : AIStrategy
  | hard : AIStrategy
deriving DecidableEq, Repr

/-- A constructed AI player: strategy, mark, and time-limit state. -/
structure AIInst where
  strat : AIStrategy
  mark : Player
  timeUp : Bool
deriving DecidableEq, Repr

/-- `get_ai_player`: map a difficulty label to a player, failing loudly
(`ValueError`) on an unknown label. -/
def get_ai_player (level : String) (mark : Player) (timeUp : Bool) :
    Except String AIInst :=
  if level = "easy" then Except.ok ⟨AIStrategy.random, mark, timeUp⟩
  else if level = "medium" then Except.ok ⟨AIStrategy.medium, mark, timeUp⟩
  else if level = "hard" then Except.ok ⟨AIStrategy.hard, mark, timeUp⟩
  else Except.error ("Unknown AI level: " ++ level)

/-- Dispatch `choose_move` on a factory-produced player, reporting the
move together with the post-call board state. -/
def AIInst.choose_move (a : AIInst) (pick : Nat) (b : Board) :
    Option (Nat × Nat) × Board :=
  match a.strat with
  | AIStrategy.random => (RandomAIPlayer.choose_move pick b, b)
  | AIStrategy.medium => MediumAIPlayer.choose_move a.mark pick b
  | AIStrategy.hard => HardAIPlayer.choose_move a.mark a.timeUp b

/-! ## Specification-side definitions

These follow the wording of the specification, not the source, and are
compared with the source-derived definitions above. -/

/-- Spec wording: row `i` "has all `size` cells equal to `m`". -/
def uniformRow (b : Board) (i : Nat) (m : Player) : Bool :=
  (List.range b.size).all (fun c => cellAt b i c == some m)

/-- Spec wording: column `j` "has all `size` cells equal to `m`". -/
def uniformCol (b : Board) (j : Nat) (m : Player) : Bool :=
  (List.range b.size).all (fun r => cellAt b r j == some m)

/-- Spec wording: the main diagonal is uniformly `m`. -/
def uniformDiag (b : Board) (m : Player) : Bool :=
  (List.range b.size).all (fun i => cellAt b i i == some m)

/-- Spec wording: the anti-diagonal is uniformly `m`. -/
def uniformAnti (b : Board) (m : Player) : Bool :=
  (List.range b.size).all (fun i => cellAt b i (b.size - 1 - i) == some m)

/-- Spec wording: "some full row, some full column, or one of the two
diagonals has all `size` cells equal to `m`". -/
def uniformLine (b : Board) (m : Player) : Bool :=
  (List.range b.size).any (fun i => uniformRow b i m) ||
  (List.range b.size).any (fun j => uniformCol b j m) ||
  uniformDiag b m || uniformAnti b m

/-- Reference winner scan in the order named by the specification: all
rows first, then all columns, then the main diagonal, then the
anti-diagonal.  To be compared with the interleaved scan of
`Board.check_winner`. -/
def check_winner_rows_first (b : Board) : Option Player :=
  match (List.range b.size).findSome? (rowCheck b) with
  | some w => some w
  | none =>
    match (List.range b.size).findSome? (colCheck b) with
    | some w => some w
    | none =>
      match diagCheck b with
      | some w => some w
      | none => antiCheck b

/-- The outcome of the position for `mark` "under best play by both
sides", following the specification of §4.5: a position with a winner is
`+1`/`-1` for `mark`, a full winnerless board is `0`, and otherwise the
player to move picks the greatest (maximising) or least (minimising)
outcome among the children obtained by placing the appropriate mark on an
empty cell.  `fuel` bounds the recursion and is always supplied at least
the number of empty cells. -/
def bestVal (mark : Player) : Nat → Board → Bool → Int
  | 0, _, _ => 0
  | fuel + 1, b, isMax =>
    match b.check_winner with
    | some w => if w = mark then 1 else -1
    | none =>
      if b.is_full then 0
      else
        let moves := (allCells b.size).filter (fun rc => b.is_valid_move rc.1 rc.2)
        let scores := moves.map (fun rc =>
          bestVal mark fuel
            (setCell b rc.1 rc.2 (some (if isMax then mark else mark.other)))
            (!isMax))
        match scores with
        | [] => 0
        | s :: rest => rest.foldl (fun a n => if isMax then max a n else min a n) s

/-- The boards reachable from a fresh 3×3 board through the public
`make_move` API (invalid attempts leave the board unchanged, so they are
harmless to allow). -/
inductive Reachable : Board → Prop where
  | init : Reachable (Board.init 3)
  | move (b : Board) (row col : Int) :
      Reachable b → Reachable (b.make_move row col).2

/-! ## Pure counterparts of the threaded AI scans

The threaded definitions above mirror the Python mutation; the pure
counterparts below forget the board component.  The bridging lemmas
prove the two agree and that the threaded versions hand the board back
unchanged — the formal content of the undo discipline. -/

/-- Pure form of `minimaxScan`: the board scanned is fixed. -/
def minimaxScanP (nextP : Board → Score) (current : Player) (isMax : Bool)
    (b : Board) : List (Nat × Nat) → Score → Score
  | [], best => best
  | rc :: rest, best =>
    if b.is_valid_move rc.1 rc.2 then
      let s := nextP (setCell b rc.1 rc.2 (some current))
      let best1 :=
        if isMax then (if best.lt s then s else best)
        else (if s.lt best then s else best)
      minimaxScanP nextP current isMax b rest best1
    else
      minimaxScanP nextP current isMax b rest best

/-- Pure form of `HardAIPlayer.minimax`. -/
def minimaxP (mark : Player) (timeUp : Bool) : Nat → Board → Bool → Score
  | 0, _, _ => Score.fin 0
  | fuel + 1, b, isMax =>
    if timeUp then Score.fin 0
    else
      match b.check_winner with
      | some w => if w = mark then Score.fin 1 else Score.fin (-1)
      | none =>
        if b.is_full then Score.fin 0
        else
          let current := if isMax then mark else mark.other
          let init := if isMax then Score.ninf else Score.pinf
          minimaxScanP (fun b1 => minimaxP mark timeUp fuel b1 (!isMax))
            current isMax b (allCells b.size) init

/-- Pure form of `rootScan`. -/
def rootScanP (nextP : Board → Score) (mark : Player) (b : Board) :
    List (Nat × Nat) → Score → Option (Nat × Nat) → Score × Option (Nat × Nat)
  | [], best, bestMove => (best, bestMove)
  | rc :: rest, best, bestMove =>
    if b.is_valid_move rc.1 rc.2 then
      let s := nextP (setCell b rc.1 rc.2 (some mark))
      if best.lt s then rootScanP nextP mark b rest s (some rc)
      else rootScanP nextP mark b rest best bestMove
    else
      rootScanP nextP mark b rest best bestMove

/-- Pure form of `HardAIPlayer.choose_move`. -/
def choose_moveP (mark : Player) (timeUp : Bool) (b : Board) : Option (Nat × Nat) :=
  (rootScanP (fun b1 => minimaxP mark timeUp (b.size * b.size) b1 false)
    mark b (allCells b.size) Score.ninf none).2

/-- `is_valid_move` restricted to natural coordinates, the only way the
AI loops ever call it. -/
def validN (b : Board) (r c : Nat) : Bool :=
  decide (r < b.size) && decide (c < b.size) && (cellAt b r c == none)

/-! ## List lemmas -/

theorem getD_set_self {α : Type} (l : List α) (i : Nat) (v d : α)
    (h : i < l.length) : (l.set i v).getD i d = v := by
  induction l generalizing i with
  | nil => simp at h
  | cons a t ih =>
    cases i with
    | zero => rfl
    | succ n => simpa using ih n (by simpa using h)

theorem getD_set_ne {α : Type} (l : List α) (i j : Nat) (v d : α)
    (h : i ≠ j) : (l.set i v).getD j d = l.getD j d := by
  induction l generalizing i j with
  | nil => simp [List.set]
  | cons a t ih =>
    cases i with
    | zero =>
      cases j with
      | zero => exact absurd rfl h
      | succ m => simp
    | succ n =>
      cases j with
      | zero => simp
      | succ m => simpa using ih n m (fun hh => h (by rw [hh]))

theorem set_getD_eq_self {α : Type} (l : List α) (i : Nat) (d : α) :
    l.set i (l.getD i d) = l := by
  induction l generalizing i with
  | nil => rfl
  | cons a t ih =>
    cases i with
    | zero => rfl
    | succ n => simpa using ih n

theorem set_of_getD {α : Type} (l : List α) (i : Nat) (d x : α)
    (h : l.getD i d = x) : l.set i x = l := by
  rw [← h]; exact set_getD_eq_self l i d

theorem set_oob {α : Type} (l : List α) (i : Nat) (v : α)
    (h : l.length ≤ i) : l.set i v = l := by
  induction l generalizing i with
  | nil => rfl
  | cons a t ih =>
    cases i with
    | zero => simp at h
    | succ n => simpa using ih n (by simpa using h)

theorem getD_mem {α : Type} (l : List α) (i : Nat) (d : α)
    (h : i < l.length) : l.getD i d ∈ l := by
  induction l generalizing i with
  | nil => simp at h
  | cons a t ih =>
    cases i with
    | zero => simp
    | succ n => simpa using Or.inr (ih n (by simpa using h))

theorem all_getD {α : Type} (p : α → Bool) (l : List α)
    (h : l.all p = true) (i : Nat) (d : α) (hi : i < l.length) :
    p (l.getD i d) = true :=
  List.all_eq_true.mp h _ (getD_mem l i d hi)

theorem all_set {α : Type} (p : α → Bool) (l : List α) (i : Nat) (v : α)
    (hl : l.all p = true) (hv : p v = true) : (l.set i v).all p = true := by
  induction l generalizing i with
  | nil => simp
  | cons a t ih =>
    simp only [List.all_cons, Bool.and_eq_true] at hl
    cases i with
    | zero => simp [hv, hl.2]
    | succ n => simp [hl.1, ih n hl.2]

theorem map_set' {α β : Type} (f : α → β) (l : List α) (i : Nat) (v : α) :
    (l.set i v).map f = (l.map f).set i (f v) := by
  induction l generalizing i with
  | nil => rfl
  | cons a t ih =>
    cases i with
    | zero => rfl
    | succ n => simp [ih n]

theorem getD_map' {α β : Type} (f : α → β) (l : List α) (i : Nat)
    (d : α) (d' : β) (h : i < l.length) :
    (l.map f).getD i d' = f (l.getD i d) := by
  induction l generalizing i with
  | nil => simp at h
  | cons a t ih =>
    cases i with
    | zero => rfl
    | succ n => simpa using ih n (by simpa using h)

theorem sum_set (xs : List Nat) (i : Nat) (y : Nat) (h : i < xs.length) :
    (xs.set i y).sum + xs.getD i 0 = xs.sum + y := by
  induction xs generalizing i with
  | nil => simp at h
  | cons a t ih =>
    cases i with
    | zero => simp [List.sum_cons]; omega
    | succ n =>
      have := ih n (by simpa using h)
      simp only [List.set, List.sum_cons, List.getD_cons_succ]
      omega

theorem countP_set_down {α : Type} (p : α → Bool) (l : List α) (i : Nat)
    (v d : α) (h : i < l.length) (hold : p (l.getD i d) = true)
    (hnew : p v = false) : (l.set i v).countP p + 1 = l.countP p := by
  induction l generalizing i with
  | nil => simp at h
  | cons a t ih =>
    cases i with
    | zero =>
      simp only [List.getD_cons_zero] at hold
      simp [List.countP_cons, hold, hnew]
    | succ n =>
      have := ih n (by simpa using h) (by simpa using hold)
      simp only [List.set, List.countP_cons]
      omega

/-! ## Score order lemmas -/

theorem Score.le_refl (a : Score) : a.le a = true := by
  cases a <;> simp [Score.le, Score.lt]

theorem Score.le_trans {a b c : Score} (h1 : a.le b = true)
    (h2 : b.le c = true) : a.le c = true := by
  cases a <;> cases b <;> cases c <;>
    simp [Score.le, Score.lt] at * <;> omega

theorem Score.le_of_lt {a b : Score} (h : a.lt b = true) : a.le b = true := by
  cases a <;> cases b <;> simp [Score.le, Score.lt] at * <;> omega

theorem Score.le_of_not_lt {a b : Score} (h : a.lt b = false) : b.le a = true := by
  simp [Score.le, h]

theorem Score.eq_ninf_of_le {a : Score} (h : a.le Score.ninf = true) :
    a = Score.ninf := by
  cases a <;> simp [Score.le, Score.lt] at *

theorem Score.fin_le_fin {x y : Int} :
    (Score.fin x).le (Score.fin y) = true ↔ x ≤ y := by
  simp [Score.le, Score.lt]

/-! ## Board and cell lemmas -/

theorem size_setCell (b : Board) (r c : Nat) (v : Option Player) :
    (setCell b r c v).size = b.size := rfl

theorem cellAt_setCell_self (b : Board) (r c : Nat) (v : Option Player)
    (hr : r < b.grid.length) (hc : c < (b.grid.getD r []).length) :
    cellAt (setCell b r c v) r c = v := by
  unfold cellAt setCell
  simp only []
  rw [getD_set_self _ _ _ _ hr, getD_set_self _ _ _ _ hc]

theorem cellAt_setCell_ne (b : Board) (r c r' c' : Nat) (v : Option Player)
    (h : r' ≠ r ∨ c' ≠ c) :
    cellAt (setCell b r c v) r' c' = cellAt b r' c' := by
  unfold cellAt setCell
  simp only []
  by_cases hrr : r' = r
  · subst hrr
    rcases h with h | h
    · exact absurd rfl h
    · by_cases hr : r' < b.grid.length
      · rw [getD_set_self _ _ _ _ hr, getD_set_ne _ _ _ _ _ (fun hh => h hh.symm)]
      · rw [set_oob _ _ _ (Nat.le_of_not_lt hr)]
  · rw [getD_set_ne _ _ _ _ _ (fun hh => hrr hh.symm)]

theorem setCell_cancel (b : Board) (r c : Nat) (v : Option Player)
    (h : cellAt b r c = none) :
    setCell (setCell b r c v) r c none = b := by
  unfold cellAt at h
  unfold setCell
  simp only []
  by_cases hr : r < b.grid.length
  · rw [getD_set_self _ _ _ _ hr, List.set_set, List.set_set,
      set_of_getD _ _ _ _ h, set_of_getD _ _ _ _ rfl]
  · rw [set_oob _ _ _ (Nat.le_of_not_lt hr), set_oob _ _ _ (Nat.le_of_not_lt hr)]

theorem wf_iff (b : Board) :
    wf b = true ↔ b.grid.length = b.size ∧ ∀ row ∈ b.grid, row.length = b.size := by
  simp [wf, List.all_eq_true]

theorem wf_init (n : Nat) : wf (Board.init n) = true := by
  rw [wf_iff]
  constructor
  · simp [Board.init]
  · intro row hrow
    simp [Board.init] at hrow
    simp [hrow.2, Board.init]

theorem wf_row_len (b : Board) (r : Nat) (hwf : wf b = true)
    (hr : r < b.size) : (b.grid.getD r []).length = b.size := by
  rw [wf_iff] at hwf
  exact hwf.2 _ (getD_mem _ _ _ (by omega))

theorem wf_setCell (b : Board) (r c : Nat) (v : Option Player)
    (h : wf b = true) : wf (setCell b r c v) = true := by
  by_cases hr : r < b.grid.length
  · rw [wf_iff] at h ⊢
    refine ⟨by simpa [setCell] using h.1, ?_⟩
    have hall : b.grid.all (fun row => row.length == b.size) = true := by
      simp [List.all_eq_true]
      exact fun row hrow => h.2 row hrow
    have : (setCell b r c v).grid.all (fun row => row.length == b.size) = true := by
      show (b.grid.set r _).all _ = true
      apply all_set _ _ _ _ hall
      have := h.2 _ (getD_mem b.grid r [] hr)
      simpa using this
    intro row hrow
    have := List.all_eq_true.mp this row hrow
    simpa using this
  · show wf { b with grid := b.grid.set r _ } = true
    rw [set_oob _ _ _ (Nat.le_of_not_lt hr)]
    exact h

theorem validN_eq (b : Board) (r c : Nat) :
    b.is_valid_move (r : Int) (c : Int) = validN b r c := by
  unfold Board.is_valid_move validN
  have h0 : decide ((0 : Int) ≤ (r : Int)) = true := by simp
  have h1 : decide ((0 : Int) ≤ (c : Int)) = true := by simp
  have h2 : decide ((r : Int) < (b.size : Int)) = decide (r < b.size) := by
    simp
  have h3 : decide ((c : Int) < (b.size : Int)) = decide (c < b.size) := by
    simp
  rw [h0, h1, h2, h3, Int.toNat_natCast, Int.toNat_natCast]
  cases decide (r < b.size) <;> cases decide (c < b.size) <;> simp

theorem validN_iff (b : Board) (r c : Nat) :
    validN b r c = true ↔ r < b.size ∧ c < b.size ∧ cellAt b r c = none := by
  simp [validN, and_assoc]

theorem noneCount_setCell (b : Board) (r c : Nat) (m : Player)
    (hr : r < b.grid.length) (hc : c < (b.grid.getD r []).length)
    (hcell : cellAt b r c = none) :
    noneCount (setCell b r c (some m)) + 1 = noneCount b := by
  unfold noneCount setCell cellAt at *
  simp only []
  rw [map_set']
  have hlen : r < (b.grid.map (fun row =>
      row.countP (fun cell => cell == none))).length := by
    simpa using hr
  have hsum := sum_set (b.grid.map (fun row =>
      row.countP (fun cell => cell == none))) r
    (((b.grid.getD r []).set c (some m)).countP (fun cell => cell == none)) hlen
  have hget : (b.grid.map (fun row =>
      row.countP (fun cell => cell == none))).getD r 0 =
      (b.grid.getD r []).countP (fun cell => cell == none) :=
    getD_map' _ _ _ [] _ hr
  have hcount : ((b.grid.getD r []).set c (some m)).countP
      (fun cell => cell == none) + 1 =
      (b.grid.getD r []).countP (fun cell => cell == none) := by
    apply countP_set_down _ _ _ _ none hc
    · simpa using hcell
    · simp
  omega

theorem noneCount_le (b : Board) (hwf : wf b = true) :
    noneCount b ≤ b.size * b.size := by
  rw [wf_iff] at hwf
  unfold noneCount
  calc (b.grid.map (fun row => row.countP (fun cell => cell == none))).sum
      ≤ (b.grid.map (fun _ => b.size)).sum := by
        apply List.sum_le_sum
        intro row hrow
        calc row.countP (fun cell => cell == none) ≤ row.length :=
              List.countP_le_length _
          _ = b.size := hwf.2 row hrow
    _ = b.grid.length * b.size := by
        rw [List.map_const', List.sum_replicate, smul_eq_mul]
    _ = b.size * b.size := by rw [hwf.1]

theorem mem_allCells {n : Nat} {rc : Nat × Nat} :
    rc ∈ allCells n ↔ rc.1 < n ∧ rc.2 < n := by
  obtain ⟨r, c⟩ := rc
  simp only [allCells, List.mem_flatMap, List.mem_map, List.mem_range,
    Prod.mk.injEq]
  constructor
  · rintro ⟨a, ha, c', hc', rfl, rfl⟩
    exact ⟨ha, hc'⟩
  · rintro ⟨h1, h2⟩
    exact ⟨r, h1, c, h2, rfl, rfl⟩

theorem getD_eq_get' {α : Type} (l : List α) (i : Nat) (d : α)
    (h : i < l.length) : l.getD i d = l[i] := by
  induction l generalizing i with
  | nil => simp at h
  | cons a t ih =>
    cases i with
    | zero => rfl
    | succ n => simpa using ih n (by simpa using h)

theorem is_full_spec (b : Board) (hwf : wf b = true) :
    b.is_full = true ↔ ∀ r c, r < b.size → c < b.size → cellAt b r c ≠ none := by
  rw [wf_iff] at hwf
  obtain ⟨hlen, hrows⟩ := hwf
  unfold Board.is_full
  constructor
  · intro h r c hr hc
    have hrc : r < b.grid.length := by omega
    have hrow := all_getD _ _ h r [] hrc
    have hcc : c < (b.grid.getD r []).length := by
      rw [hrows _ (getD_mem _ _ _ hrc)]; omega
    have := all_getD _ _ hrow c none hcc
    unfold cellAt
    simpa using this
  · intro h
    rw [List.all_eq_true]
    intro row hrow
    rw [List.all_eq_true]
    intro cell hcell
    obtain ⟨r, hr, hrowr⟩ := List.mem_iff_getElem.mp hrow
    obtain ⟨c, hc, hcellc⟩ := List.mem_iff_getElem.mp hcell
    have hcell' : cellAt b r c = cell := by
      unfold cellAt
      rw [getD_eq_get' _ _ _ hr, hrowr, getD_eq_get' _ _ _ hc, hcellc]
    have hcsz : c < b.size := by
      rw [← hrows row hrow]
      exact hc
    have := h r c (by omega) hcsz
    rw [hcell'] at this
    simpa using this

theorem exists_empty_of_not_full (b : Board) (hwf : wf b = true)
    (h : b.is_full = false) :
    ∃ r c, r < b.size ∧ c < b.size ∧ cellAt b r c = none := by
  by_contra hno
  push_neg at hno
  have : b.is_full = true := by
    rw [is_full_spec b hwf]
    intro r c hr hc
    exact hno r c hr hc
  rw [this] at h
  cases h

theorem not_full_of_empty (b : Board) (hwf : wf b = true) (r c : Nat)
    (hr : r < b.size) (hc : c < b.size) (hcell : cellAt b r c = none) :
    b.is_full = false := by
  by_contra h
  rw [Bool.not_eq_false] at h
  exact (is_full_spec b hwf).mp h r c hr hc hcell

theorem make_move_valid (b : Board) (row col : Int)
    (h : b.is_valid_move row col = true) :
    b.make_move row col =
      (true, { setCell b row.toNat col.toNat (some b.turn) with
                 turn := b.turn.other }) := by
  unfold Board.make_move
  simp [h]

theorem make_move_invalid (b : Board) (row col : Int)
    (h : b.is_valid_move row col = false) :
    b.make_move row col = (false, b) := by
  unfold Board.make_move
  simp [h]

theorem cellAt_of_valid (b : Board) (r c : Nat)
    (h : b.is_valid_move (r : Int) (c : Int) = true) :
    r < b.size ∧ c < b.size ∧ cellAt b r c = none := by
  rw [validN_eq] at h
  exact (validN_iff b r c).mp h

/-! ## Bridging lemmas: threaded scans against pure scans

These prove at once that the simulation loops compute the pure values
and hand the board back exactly as they found it (the undo discipline). -/

theorem minimaxScan_eq (next : Board → Score × Board) (nextP : Board → Score)
    (hnext : ∀ b1, next b1 = (nextP b1, b1)) (current : Player) (isMax : Bool) :
    ∀ (l : List (Nat × Nat)) (best : Score) (b : Board),
      minimaxScan next current isMax l best b =
        (minimaxScanP nextP current isMax b l best, b) := by
  intro l
  induction l with
  | nil => intro best b; rfl
  | cons rc rest ih =>
    intro best b
    simp only [minimaxScan, minimaxScanP]
    by_cases hv : b.is_valid_move (rc.1 : Int) (rc.2 : Int) = true
    · have hcell := (cellAt_of_valid b rc.1 rc.2 hv).2.2
      have hcancel := setCell_cancel b rc.1 rc.2 (some current) hcell
      simp only [hv, if_true, hnext, hcancel]
      exact ih _ _
    · rw [Bool.not_eq_true] at hv
      simp only [hv, Bool.false_eq_true, if_false]
      exact ih _ _

theorem minimax_eq_pure (mark : Player) (timeUp : Bool) :
    ∀ (fuel : Nat) (b : Board) (isMax : Bool),
      HardAIPlayer.minimax mark timeUp fuel b isMax =
        (minimaxP mark timeUp fuel b isMax, b) := by
  intro fuel
  induction fuel with
  | zero => intro b isMax; rfl
  | succ fuel ih =>
    intro b isMax
    simp only [HardAIPlayer.minimax, minimaxP]
    by_cases ht : timeUp = true
    · simp [ht]
    · rw [Bool.not_eq_true] at ht
      subst ht
      simp only [Bool.false_eq_true, if_false]
      cases hw : b.check_winner with
      | some w => simp
      | none =>
        by_cases hf : b.is_full = true
        · simp [hf]
        · rw [Bool.not_eq_true] at hf
          simp only [hf, Bool.false_eq_true, if_false]
          exact minimaxScan_eq _ _ (fun b1 => ih b1 (!isMax)) _ _ _ _ _

theorem rootScan_eq (next : Board → Score × Board) (nextP : Board → Score)
    (hnext : ∀ b1, next b1 = (nextP b1, b1)) (mark : Player) :
    ∀ (l : List (Nat × Nat)) (best : Score) (bestMove : Option (Nat × Nat))
      (b : Board),
      rootScan next mark l best bestMove b =
        ((rootScanP nextP mark b l best bestMove).2, b) := by
  intro l
  induction l with
  | nil => intro best bestMove b; rfl
  | cons rc rest ih =>
    intro best bestMove b
    simp only [rootScan, rootScanP]
    by_cases hv : b.is_valid_move (rc.1 : Int) (rc.2 : Int) = true
    · have hcell := (cellAt_of_valid b rc.1 rc.2 hv).2.2
      have hcancel := setCell_cancel b rc.1 rc.2 (some mark) hcell
      simp only [hv, if_true, hnext, hcancel]
      by_cases hlt : best.lt (nextP (setCell b rc.1 rc.2 (some mark))) = true
      · simp only [hlt, if_true]
        exact ih _ _ _
      · rw [Bool.not_eq_true] at hlt
        simp only [hlt, Bool.false_eq_true, if_false]
        exact ih _ _ _
    · rw [Bool.not_eq_true] at hv
      simp only [hv, Bool.false_eq_true, if_false]
      exact ih _ _ _

theorem choose_move_hard_eq (mark : Player) (timeUp : Bool) (b : Board) :
    HardAIPlayer.choose_move mark timeUp b = (choose_moveP mark timeUp b, b) := by
  unfold HardAIPlayer.choose_move choose_moveP
  exact rootScan_eq _ _ (fun b1 => minimax_eq_pure mark timeUp _ b1 false) _ _ _ _ _

/-- The predicate decided by one step of the medium AI's winning scan:
the cell is a valid move and placing `m` there completes a line for `m`. -/
def winsAt (b : Board) (m : Player) (rc : Nat × Nat) : Bool :=
  b.is_valid_move (rc.1 : Int) (rc.2 : Int) &&
    ((setCell b rc.1 rc.2 (some m)).check_winner == some m)

theorem winScan_eq (m : Player) :
    ∀ (l : List (Nat × Nat)) (b : Board),
      MediumAIPlayer.winScan m l b = (l.find? (winsAt b m), b) := by
  intro l
  induction l with
  | nil => intro b; rfl
  | cons rc rest ih =>
    intro b
    simp only [MediumAIPlayer.winScan]
    by_cases hv : b.is_valid_move (rc.1 : Int) (rc.2 : Int) = true
    · have hcell := (cellAt_of_valid b rc.1 rc.2 hv).2.2
      have hcancel := setCell_cancel b rc.1 rc.2 (some m) hcell
      by_cases hw : ((setCell b rc.1 rc.2 (some m)).check_winner == some m) = true
      · have hp : winsAt b m rc = true := by simp [winsAt, hv, hw]
        simp [hv, hw, hcancel, List.find?_cons_of_pos _ hp]
      · have hp : winsAt b m rc = false := by simp [winsAt, hw]
        have hfind : List.find? (winsAt b m) (rc :: rest) =
            List.find? (winsAt b m) rest :=
          List.find?_cons_of_neg _ (by simp [hp])
        rw [Bool.not_eq_true] at hw
        simp [hv, hw, hcancel, hfind, ih]
    · have hp : winsAt b m rc = false := by
        rw [Bool.not_eq_true] at hv
        simp [winsAt, hv]
      have hfind : List.find? (winsAt b m) (rc :: rest) =
          List.find? (winsAt b m) rest :=
        List.find?_cons_of_neg _ (by simp [hp])
      rw [Bool.not_eq_true] at hv
      simp [hv, hfind, ih]

theorem choose_move_medium_eq (mark : Player) (pick : Nat) (b : Board) :
    MediumAIPlayer.choose_move mark pick b =
      (match (allCells b.size).find? (winsAt b mark) with
       | some rc => some rc
       | none =>
         match (allCells b.size).find? (winsAt b mark.other) with
         | some rc => some rc
         | none => RandomAIPlayer.choose_move pick b, b) := by
  unfold MediumAIPlayer.choose_move
  rw [winScan_eq]
  cases h1 : (allCells b.size).find? (winsAt b mark) with
  | some rc => simp
  | none =>
    simp only []
    rw [winScan_eq]
    cases h2 : (allCells b.size).find? (winsAt b mark.other) with
    | some rc => simp
    | none => simp

/-- The shared behaviour of `make_move` on a valid move: success, the
targeted cell receives the pre-call turn, every other cell is untouched,
and the turn flips. -/
theorem make_move_spec (b : Board) (row col : Int)
    (hwf : wf b = true) (hv : b.is_valid_move row col = true) :
    (b.make_move row col).1 = true ∧
    cellAt (b.make_move row col).2 row.toNat col.toNat = some b.turn ∧
    (∀ r' c' : Nat, ¬(r' = row.toNat ∧ c' = col.toNat) →
      cellAt (b.make_move row col).2 r' c' = cellAt b r' c') ∧
    (b.make_move row col).2.turn = b.turn.other := by
  have hb := hv
  unfold Board.is_valid_move at hb
  simp only [Bool.and_eq_true, decide_eq_true_eq, beq_iff_eq] at hb
  obtain ⟨⟨⟨⟨h0r, hrs⟩, h0c⟩, hcs⟩, hcell⟩ := hb
  have hrn : row.toNat < b.size := by omega
  have hcn : col.toNat < b.size := by omega
  have hglen : row.toNat < b.grid.length := by
    rw [(wf_iff b).mp hwf |>.1]; exact hrn
  have hrowlen : col.toNat < (b.grid.getD row.toNat []).length := by
    rw [wf_row_len b row.toNat hwf hrn]; exact hcn
  rw [make_move_valid b row col hv]
  refine ⟨rfl, ?_, ?_, rfl⟩
  · exact cellAt_setCell_self b row.toNat col.toNat (some b.turn) hglen hrowlen
  · intro r' c' hne
    show cellAt (setCell b row.toNat col.toNat (some b.turn)) r' c' = cellAt b r' c'
    apply cellAt_setCell_ne
    by_cases h : r' = row.toNat
    · exact Or.inr (fun hc => hne ⟨h, hc⟩)
    · exact Or.inl h

/-! ## Claim C2 -/

/-- Claim C2: for every board and every `(row, col)` with `is_valid_move`
true, `make_move` returns success, sets exactly that cell to the pre-call
`turn` value while leaving every other cell unchanged, and flips `turn`
to the other mark exactly once. -/
theorem claim2_make_move_updates_one_cell (b : Board) (row col : Int)
    (hwf : wf b = true) (hv : b.is_valid_move row col = true) :
    (b.make_move row col).1 = true ∧
    cellAt (b.make_move row col).2 row.toNat col.toNat = some b.turn ∧
    (∀ r' c' : Nat, ¬(r' = row.toNat ∧ c' = col.toNat) →
      cellAt (b.make_move row col).2 r' c' = cellAt b r' c') ∧
    (b.make_move row col).2.turn = b.turn.other :=
  make_move_spec b row col hwf hv

/-- Witness for C2: the first move on a fresh board. -/
theorem claim2_witness :
    ((Board.init 3).make_move 0 0).1 = true ∧
    cellAt ((Board.init 3).make_move 0 0).2 0 0 = some Player.X ∧
    ((Board.init 3).make_move 0 0).2.turn = Player.O := by
  have h := claim2_make_move_updates_one_cell (Board.init 3) 0 0
    (by decide) (by decide)
  exact ⟨h.1, h.2.1, h.2.2.2⟩

/-! ## Claim C3 -/

/-- Claim C3: for every board and every `(row, col)` with `is_valid_move`
false (out-of-range coordinates or an occupied cell), `make_move` returns
failure and leaves the whole board — grid and turn — unchanged. -/
theorem claim3_make_move_invalid_unchanged (b : Board) (row col : Int)
    (h : b.is_valid_move row col = false) :
    b.make_move row col = (false, b) :=
  make_move_invalid b row col h

/-- Witness for C3: an out-of-range move on a fresh board. -/
theorem claim3_witness : (Board.init 3).make_move 5 0 = (false, Board.init 3) :=
  claim3_make_move_invalid_unchanged (Board.init 3) 5 0 (by decide)

/-! ## Claim C10 -/

/-- Claim C10: `make_move` does not inspect terminal state — on a board
that already has a completed winning line, any in-bounds empty cell is
still a valid move, and `make_move` places the current turn's mark there,
flips the turn, and returns success. -/
theorem claim10_board_ignores_winner (b : Board) (r c : Nat) (w : Player)
    (hwf : wf b = true) (hwin : b.check_winner = some w)
    (hr : r < b.size) (hc : c < b.size) (hcell : cellAt b r c = none) :
    b.is_valid_move (r : Int) (c : Int) = true ∧
    (b.make_move (r : Int) (c : Int)).1 = true ∧
    cellAt (b.make_move (r : Int) (c : Int)).2 r c = some b.turn ∧
    (b.make_move (r : Int) (c : Int)).2.turn = b.turn.other := by
  have hv : b.is_valid_move (r : Int) (c : Int) = true := by
    rw [validN_eq]
    exact (validN_iff b r c).mpr ⟨hr, hc, hcell⟩
  have h := make_move_spec b (r : Int) (c : Int) hwf hv
  refine ⟨hv, h.1, ?_, h.2.2.2⟩
  have := h.2.1
  simpa using this

/-- Witness for C10: a board where `X` has already completed the top row
and yet the move `(2, 2)` is still accepted. -/
theorem claim10_witness :
    let b : Board := ⟨3, [[some Player.X, some Player.X, some Player.X],
                          [some Player.O, some Player.O, none],
                          [none, none, none]], Player.O⟩
    b.is_valid_move 2 2 = true ∧ (b.make_move 2 2).1 = true ∧
    (b.make_move 2 2).2.turn = Player.X := by
  have h := claim10_board_ignores_winner
    ⟨3, [[some Player.X, some Player.X, some Player.X],
         [some Player.O, some Player.O, none],
         [none, none, none]], Player.O⟩ 2 2 Player.X
    (by decide) (by decide) (by decide) (by decide) (by decide)
  exact ⟨h.1, h.2.1, h.2.2.2⟩

/-! ## Claim C5 -/

/-- Claim C5: every strategy the factory can produce hands the board back
exactly as it found it — every hypothetical placement made during
evaluation is undone before return, whatever move (or `none`) comes out. -/
theorem claim5_choose_move_preserves_board (level : String) (mark : Player)
    (timeUp : Bool) (inst : AIInst) (pick : Nat) (b : Board)
    (hfac : get_ai_player level mark timeUp = Except.ok inst) :
    (inst.choose_move pick b).2 = b := by
  unfold AIInst.choose_move
  cases inst.strat with
  | random => rfl
  | medium => rw [choose_move_medium_eq]
  | hard => rw [choose_move_hard_eq]

/-- Witness for C5: the hard strategy under time pressure on a fresh
board. -/
theorem claim5_witness :
    ((AIInst.mk AIStrategy.hard Player.X true).choose_move 0 (Board.init 3)).2 =
      Board.init 3 :=
  claim5_choose_move_preserves_board "hard" Player.X true
    (AIInst.mk AIStrategy.hard Player.X true) 0 (Board.init 3) rfl

/-! ## Claim C6 -/

/-- The concrete position named by the claim:
`[["X","X",""],["O","",""],["","",""]]`. -/
def mediumExample : Board :=
  ⟨3, [[some Player.X, some Player.X, none],
       [some Player.O, none, none],
       [none, none, none]], Player.X⟩

/-- Claim C6: whenever some empty cell completes a line for the AI's own
mark, `MediumAIPlayer.choose_move` returns the first such cell in
row-major order — before considering any blocking move; in particular,
on `[["X","X",""],["O","",""],["","",""]]` playing as `X` it returns
`(0, 2)`. -/
theorem claim6_medium_plays_first_win :
    (∀ (mark : Player) (pick : Nat) (b : Board),
      (∃ rc, rc ∈ allCells b.size ∧ winsAt b mark rc = true) →
      ∃ rc, (allCells b.size).find? (winsAt b mark) = some rc ∧
        (MediumAIPlayer.choose_move mark pick b).1 = some rc) ∧
    (∀ pick : Nat,
      (MediumAIPlayer.choose_move Player.X pick mediumExample).1 = some (0, 2)) := by
  constructor
  · intro mark pick b h
    cases hfind : (allCells b.size).find? (winsAt b mark) with
    | none =>
      obtain ⟨rc, hmem, hwins⟩ := h
      have := List.find?_eq_none.mp hfind rc hmem
      rw [hwins] at this
      exact absurd rfl this
    | some rc =>
      refine ⟨rc, rfl, ?_⟩
      rw [choose_move_medium_eq]
      simp [hfind]
  · intro pick
    rfl

/-- Witness for C6: the claim's own example position. -/
theorem claim6_witness :
    ∃ rc, (allCells mediumExample.size).find? (winsAt mediumExample Player.X) =
        some rc ∧
      (MediumAIPlayer.choose_move Player.X 0 mediumExample).1 = some rc :=
  claim6_medium_plays_first_win.1 Player.X 0 mediumExample
    ⟨(0, 2), by decide, by decide⟩

/-! ## Winner-scan theory (claims C4 and C8) -/

theorem uniformRow_cell {b : Board} {i : Nat} {m : Player}
    (h : uniformRow b i m = true) {c : Nat} (hc : c < b.size) :
    cellAt b i c = some m := by
  simp only [uniformRow, List.all_eq_true, List.mem_range, beq_iff_eq] at h
  exact h c hc

theorem uniformCol_cell {b : Board} {j : Nat} {m : Player}
    (h : uniformCol b j m = true) {r : Nat} (hr : r < b.size) :
    cellAt b r j = some m := by
  simp only [uniformCol, List.all_eq_true, List.mem_range, beq_iff_eq] at h
  exact h r hr

theorem uniformDiag_cell {b : Board} {m : Player}
    (h : uniformDiag b m = true) {i : Nat} (hi : i < b.size) :
    cellAt b i i = some m := by
  simp only [uniformDiag, List.all_eq_true, List.mem_range, beq_iff_eq] at h
  exact h i hi

theorem uniformAnti_cell {b : Board} {m : Player}
    (h : uniformAnti b m = true) {i : Nat} (hi : i < b.size) :
    cellAt b i (b.size - 1 - i) = some m := by
  simp only [uniformAnti, List.all_eq_true, List.mem_range, beq_iff_eq] at h
  exact h i hi

theorem rowCheck_sound {b : Board} {i : Nat} {m : Player}
    (h : rowCheck b i = some m) : uniformRow b i m = true := by
  unfold rowCheck at h
  split at h
  · next hcond =>
    simp only [Bool.and_eq_true, Bool.not_eq_true', beq_eq_false_iff_ne,
      List.all_eq_true, List.mem_range, beq_iff_eq] at hcond
    simp only [uniformRow, List.all_eq_true, List.mem_range, beq_iff_eq]
    intro c hc
    rw [hcond.2 c hc, h]
  · exact absurd h (by simp)

theorem rowCheck_complete {b : Board} {i : Nat} {m : Player}
    (hpos : 0 < b.size) (h : uniformRow b i m = true) :
    rowCheck b i = some m := by
  have h0 : cellAt b i 0 = some m := uniformRow_cell h hpos
  have hcond : (!(cellAt b i 0 == none) &&
      (List.range b.size).all (fun col => cellAt b i col == cellAt b i 0)) = true := by
    simp only [Bool.and_eq_true, Bool.not_eq_true', beq_eq_false_iff_ne,
      List.all_eq_true, List.mem_range, beq_iff_eq, h0]
    refine ⟨by simp, ?_⟩
    intro c hc
    rw [uniformRow_cell h hc]
  unfold rowCheck
  rw [if_pos hcond]
  exact h0

theorem colCheck_sound {b : Board} {j : Nat} {m : Player}
    (h : colCheck b j = some m) : uniformCol b j m = true := by
  unfold colCheck at h
  split at h
  · next hcond =>
    simp only [Bool.and_eq_true, Bool.not_eq_true', beq_eq_false_iff_ne,
      List.all_eq_true, List.mem_range, beq_iff_eq] at hcond
    simp only [uniformCol, List.all_eq_true, List.mem_range, beq_iff_eq]
    intro r hr
    rw [hcond.2 r hr, h]
  · exact absurd h (by simp)

theorem colCheck_complete {b : Board} {j : Nat} {m : Player}
    (hpos : 0 < b.size) (h : uniformCol b j m = true) :
    colCheck b j = some m := by
  have h0 : cellAt b 0 j = some m := uniformCol_cell h hpos
  have hcond : (!(cellAt b 0 j == none) &&
      (List.range b.size).all (fun r => cellAt b r j == cellAt b 0 j)) = true := by
    simp only [Bool.and_eq_true, Bool.not_eq_true', beq_eq_false_iff_ne,
      List.all_eq_true, List.mem_range, beq_iff_eq, h0]
    refine ⟨by simp, ?_⟩
    intro r hr
    rw [uniformCol_cell h hr]
  unfold colCheck
  rw [if_pos hcond]
  exact h0

theorem diagCheck_sound {b : Board} {m : Player}
    (h : diagCheck b = some m) : uniformDiag b m = true := by
  unfold diagCheck at h
  split at h
  · next hcond =>
    simp only [Bool.and_eq_true, Bool.not_eq_true', beq_eq_false_iff_ne,
      List.all_eq_true, List.mem_range, beq_iff_eq] at hcond
    simp only [uniformDiag, List.all_eq_true, List.mem_range, beq_iff_eq]
    intro i hi
    rw [hcond.2 i hi, h]
  · exact absurd h (by simp)

theorem diagCheck_complete {b : Board} {m : Player}
    (hpos : 0 < b.size) (h : uniformDiag b m = true) :
    diagCheck b = some m := by
  have h0 : cellAt b 0 0 = some m := uniformDiag_cell h hpos
  have hcond : (!(cellAt b 0 0 == none) &&
      (List.range b.size).all (fun i => cellAt b i i == cellAt b 0 0)) = true := by
    simp only [Bool.and_eq_true, Bool.not_eq_true', beq_eq_false_iff_ne,
      List.all_eq_true, List.mem_range, beq_iff_eq, h0]
    refine ⟨by simp, ?_⟩
    intro i hi
    rw [uniformDiag_cell h hi]
  unfold diagCheck
  rw [if_pos hcond]
  exact h0

theorem antiCheck_sound {b : Board} {m : Player}
    (h : antiCheck b = some m) : uniformAnti b m = true := by
  unfold antiCheck at h
  split at h
  · next hcond =>
    simp only [Bool.and_eq_true, Bool.not_eq_true', beq_eq_false_iff_ne,
      List.all_eq_true, List.mem_range, beq_iff_eq] at hcond
    simp only [uniformAnti, List.all_eq_true, List.mem_range, beq_iff_eq]
    intro i hi
    rw [hcond.2 i hi, h]
  · exact absurd h (by simp)

theorem antiCheck_complete {b : Board} {m : Player}
    (hpos : 0 < b.size) (h : uniformAnti b m = true) :
    antiCheck b = some m := by
  have h0 : cellAt b 0 (b.size - 1) = some m := by
    have := uniformAnti_cell h hpos
    simpa using this
  have hcond : (!(cellAt b 0 (b.size - 1) == none) &&
      (List.range b.size).all
        (fun i => cellAt b i (b.size - 1 - i) == cellAt b 0 (b.size - 1))) = true := by
    simp only [Bool.and_eq_true, Bool.not_eq_true', beq_eq_false_iff_ne,
      List.all_eq_true, List.mem_range, beq_iff_eq, h0]
    refine ⟨by simp, ?_⟩
    intro i hi
    rw [uniformAnti_cell h hi]
  unfold antiCheck
  rw [if_pos hcond]
  exact h0

theorem findSome?_some {α β : Type} {f : α → Option β} {l : List α} {y : β}
    (h : l.findSome? f = some y) : ∃ x ∈ l, f x = some y := by
  induction l with
  | nil => simp at h
  | cons a t ih =>
    rw [List.findSome?_cons] at h
    cases hfa : f a with
    | some z =>
      rw [hfa] at h
      simp only [Option.some.injEq] at h
      subst h
      exact ⟨a, by simp, hfa⟩
    | none =>
      rw [hfa] at h
      simp only [] at h
      obtain ⟨x, hx, hfx⟩ := ih h
      exact ⟨x, by simp [hx], hfx⟩

theorem findSome?_isSome_of_mem {α β : Type} {f : α → Option β} {l : List α}
    {x : α} {y : β} (hx : x ∈ l) (hfx : f x = some y) :
    ∃ z, l.findSome? f = some z := by
  induction l with
  | nil => simp at hx
  | cons a t ih =>
    cases hfa : f a with
    | some z => exact ⟨z, by rw [List.findSome?_cons, hfa]⟩
    | none =>
      rcases List.mem_cons.mp hx with rfl | hx'
      · rw [hfa] at hfx; cases hfx
      · obtain ⟨z, hz⟩ := ih hx'
        exact ⟨z, by rw [List.findSome?_cons, hfa, hz]⟩

theorem lineCheck_sound {b : Board} {i : Nat} {m : Player}
    (h : lineCheck b i = some m) :
    uniformRow b i m = true ∨ uniformCol b i m = true := by
  unfold lineCheck at h
  cases hr : rowCheck b i with
  | some w =>
    rw [hr] at h
    cases h
    exact Or.inl (rowCheck_sound hr)
  | none =>
    rw [hr] at h
    exact Or.inr (colCheck_sound h)

theorem check_winner_sound {b : Board} {m : Player}
    (h : b.check_winner = some m) : uniformLine b m = true := by
  unfold Board.check_winner at h
  cases hline : (List.range b.size).findSome? (lineCheck b) with
  | some w =>
    rw [hline] at h
    cases h
    obtain ⟨i, hi, hline_i⟩ := findSome?_some hline
    rcases lineCheck_sound hline_i with hrow | hcol
    · apply Bool.or_eq_true_iff.mpr
      left
      apply Bool.or_eq_true_iff.mpr
      left
      apply Bool.or_eq_true_iff.mpr
      left
      simp only [List.any_eq_true, List.mem_range]
      exact ⟨i, by simpa using hi, hrow⟩
    · apply Bool.or_eq_true_iff.mpr
      left
      apply Bool.or_eq_true_iff.mpr
      left
      apply Bool.or_eq_true_iff.mpr
      right
      simp only [List.any_eq_true, List.mem_range]
      exact ⟨i, by simpa using hi, hcol⟩
  | none =>
    rw [hline] at h
    cases hdiag : diagCheck b with
    | some w =>
      rw [hdiag] at h
      cases h
      apply Bool.or_eq_true_iff.mpr
      left
      apply Bool.or_eq_true_iff.mpr
      right
      exact diagCheck_sound hdiag
    | none =>
      rw [hdiag] at h
      apply Bool.or_eq_true_iff.mpr
      right
      exact antiCheck_sound h

theorem check_winner_fires {b : Board} {m : Player} (hpos : 0 < b.size)
    (h : uniformLine b m = true) : ∃ x, b.check_winner = some x := by
  unfold Board.check_winner
  cases hline : (List.range b.size).findSome? (lineCheck b) with
  | some w => exact ⟨w, rfl⟩
  | none =>
    simp only [uniformLine, Bool.or_eq_true, List.any_eq_true,
      List.mem_range] at h
    rcases h with ((⟨i, hi, hrow⟩ | ⟨j, hj, hcol⟩) | hdiag) | hanti
    · exfalso
      have hr := rowCheck_complete hpos hrow
      have hl : lineCheck b i = some m := by unfold lineCheck; rw [hr]
      obtain ⟨z, hz⟩ := findSome?_isSome_of_mem (List.mem_range.mpr hi) hl
      rw [hline] at hz
      cases hz
    · exfalso
      have hc := colCheck_complete hpos hcol
      have hl : ∃ w, lineCheck b j = some w := by
        unfold lineCheck
        cases hr : rowCheck b j with
        | some w => exact ⟨w, rfl⟩
        | none => exact ⟨m, hc⟩
      obtain ⟨w, hw⟩ := hl
      obtain ⟨z, hz⟩ := findSome?_isSome_of_mem (List.mem_range.mpr hj) hw
      rw [hline] at hz
      cases hz
    · have hd := diagCheck_complete hpos hdiag
      rw [hd]
      exact ⟨m, rfl⟩
    · cases hdiag : diagCheck b with
      | some w => exact ⟨w, rfl⟩
      | none => exact ⟨m, antiCheck_complete hpos hanti⟩

theorem getD_replicate {α : Type} (n i : Nat) (a d : α) :
    (List.replicate n a).getD i d = if i < n then a else d := by
  induction n generalizing i with
  | zero => simp
  | succ k ih =>
    cases i with
    | zero => simp [List.replicate]
    | succ j =>
      simp only [List.replicate, List.getD_cons_succ, ih]
      by_cases hj : j < k
      · simp [hj, Nat.succ_lt_succ hj]
      · simp [hj, fun hh => hj (Nat.lt_of_succ_lt_succ hh)]

theorem cellAt_init (n r c : Nat) : cellAt (Board.init n) r c = none := by
  unfold cellAt Board.init
  simp only []
  rw [getD_replicate]
  by_cases hr : r < n
  · rw [if_pos hr, getD_replicate]
    split <;> rfl
  · rw [if_neg hr]
    rfl

theorem check_winner_init (n : Nat) : (Board.init n).check_winner = none := by
  have hrow : ∀ i, rowCheck (Board.init n) i = none := by
    intro i
    unfold rowCheck
    rw [if_neg]
    simp [cellAt_init]
  have hcol : ∀ i, colCheck (Board.init n) i = none := by
    intro i
    unfold colCheck
    rw [if_neg]
    simp [cellAt_init]
  unfold Board.check_winner
  have hline : (List.range n).findSome? (lineCheck (Board.init n)) = none := by
    rw [List.findSome?_eq_none]
    intro i hi
    unfold lineCheck
    rw [hrow, hcol]
  have : (List.range (Board.init n).size).findSome? (lineCheck (Board.init n)) =
      none := hline
  rw [this]
  have hd : diagCheck (Board.init n) = none := by
    unfold diagCheck
    rw [if_neg]
    simp [cellAt_init]
  rw [hd]
  unfold antiCheck
  rw [if_neg]
  simp [cellAt_init]

/-- Every mark is `m` or `m.other`. -/
theorem player_eq_or_other (x m : Player) : x = m ∨ x = m.other := by
  cases x <;> cases m <;> simp [Player.other]

/-! ## Claim C4 -/

/-- A board on which both `X` and `O` have a complete uniform row
(unreachable in alternating play that stops at a win, but a legal value
of the `Board` class). -/
def twoRowsBoard : Board :=
  ⟨3, [[some Player.X, some Player.X, some Player.X],
       [some Player.O, some Player.O, some Player.O],
       [none, none, none]], Player.X⟩

/-- Counterexample to C4 as stated: on `twoRowsBoard` the middle row is
uniformly `O`, yet `check_winner` does not return `O` (it returns `X`,
the first complete line in scan order), so the "if and only if" fails in
the right-to-left direction. -/
theorem claim4_counterexample :
    ¬ (twoRowsBoard.check_winner = some Player.O ↔
        uniformLine twoRowsBoard Player.O = true) := by
  decide

/-- Claim C4 as amended: `check_winner` returns `m` only if some full
row, column, or diagonal is uniformly `m`; it returns `None` iff no mark
has a uniform line; it does return `m` whenever `m` has a uniform line
and the other mark has none (the only case two marks can simultaneously
have complete lines being two parallel lines, as in the counterexample);
and on the empty board it returns `None`. -/
theorem claim4_check_winner_characterisation (b : Board) (hpos : 0 < b.size) :
    (∀ m, b.check_winner = some m → uniformLine b m = true) ∧
    (b.check_winner = none ↔ ∀ m, uniformLine b m = false) ∧
    (∀ m, uniformLine b m = true → uniformLine b m.other = false →
      b.check_winner = some m) ∧
    (Board.init b.size).check_winner = none := by
  refine ⟨?_, ?_, ?_, check_winner_init b.size⟩
  · intro m h
    exact check_winner_sound h
  · constructor
    · intro hnone m
      by_contra hm
      rw [Bool.not_eq_false] at hm
      obtain ⟨x, hx⟩ := check_winner_fires hpos hm
      rw [hnone] at hx
      cases hx
    · intro hall
      cases hw : b.check_winner with
      | none => rfl
      | some x =>
        have := check_winner_sound hw
        rw [hall x] at this
        cases this
  · intro m hm hother
    obtain ⟨x, hx⟩ := check_winner_fires hpos hm
    have hux := check_winner_sound hx
    rcases player_eq_or_other x m with rfl | rfl
    · exact hx
    · rw [hother] at hux
      cases hux

/-- Witness for the amended C4: a board where only `X` has a complete
line is decided for `X`. -/
theorem claim4_witness :
    (Board.mk 3 [[some Player.X, some Player.X, some Player.X],
                 [some Player.O, some Player.O, none],
                 [none, none, none]] Player.O).check_winner = some Player.X :=
  (claim4_check_winner_characterisation
    (Board.mk 3 [[some Player.X, some Player.X, some Player.X],
                 [some Player.O, some Player.O, none],
                 [none, none, none]] Player.O) (by decide)).2.2.1
    Player.X (by decide) (by decide)

/-! ## Claim C8 -/

/-- Interleaving two scans is the same as running them in sequence when
hits of the two scans can never disagree on the value. -/
theorem findSome?_interleave (f g : Nat → Option Player) :
    ∀ (l : List Nat),
      (∀ i ∈ l, ∀ j ∈ l, ∀ x y, f i = some x → g j = some y → x = y) →
      l.findSome? (fun i =>
        match f i with
        | some w => some w
        | none => g i) =
      (match l.findSome? f with
       | some w => some w
       | none => l.findSome? g) := by
  intro l
  induction l with
  | nil => intro hc; rfl
  | cons a t ih =>
    intro hc
    have hct : ∀ i ∈ t, ∀ j ∈ t, ∀ x y, f i = some x → g j = some y → x = y :=
      fun i hi j hj => hc i (List.mem_cons_of_mem _ hi) j (List.mem_cons_of_mem _ hj)
    cases hfa : f a with
    | some x =>
      rw [List.findSome?_cons]
      have hstep : (match f a with | some w => some w | none => g a) = some x := by
        rw [hfa]
      rw [hstep, List.findSome?_cons, hfa]
    | none =>
      cases hga : g a with
      | some y =>
        rw [List.findSome?_cons]
        have hstep : (match f a with | some w => some w | none => g a) = some y := by
          rw [hfa]; exact hga
        rw [hstep, List.findSome?_cons, hfa]
        simp only []
        cases hft : t.findSome? f with
        | some x =>
          obtain ⟨j, hj, hfj⟩ := findSome?_some hft
          have hxy := hc j (List.mem_cons_of_mem _ hj) a (List.mem_cons_self _ _)
            x y hfj hga
          rw [hxy]
        | none =>
          rw [List.findSome?_cons, hga]
      | none =>
        rw [List.findSome?_cons]
        have hstep : (match f a with | some w => some w | none => g a) = none := by
          rw [hfa]; exact hga
        rw [hstep, List.findSome?_cons, hfa]
        simp only []
        rw [List.findSome?_cons, hga]
        simp only []
        exact ih hct

/-- The interleaved scan of `check_winner` is extensionally the
rows-first scan of the specification. -/
theorem check_winner_eq_rows_first (b : Board) :
    b.check_winner = check_winner_rows_first b := by
  have hcompat : ∀ i ∈ List.range b.size, ∀ j ∈ List.range b.size,
      ∀ x y, rowCheck b i = some x → colCheck b j = some y → x = y := by
    intro i hi j hj x y hr hcol
    have hrow := rowCheck_sound hr
    have hcolu := colCheck_sound hcol
    have h1 : cellAt b i j = some x := uniformRow_cell hrow (List.mem_range.mp hj)
    have h2 : cellAt b i j = some y := uniformCol_cell hcolu (List.mem_range.mp hi)
    rw [h1] at h2
    exact Option.some.inj h2
  have hint := findSome?_interleave (rowCheck b) (colCheck b)
    (List.range b.size) hcompat
  unfold Board.check_winner check_winner_rows_first lineCheck
  rw [hint]
  cases hA : (List.range b.size).findSome? (rowCheck b) with
  | some w => rfl
  | none => rfl

/-- Claim C8: the winner scan is (extensionally) all rows first, then all
columns, then the main diagonal, then the anti-diagonal; and whenever a
complete uniform row and a complete uniform column both exist, their
marks coincide (they intersect) and that mark — in particular the row's
mark — is what `check_winner` returns. -/
theorem claim8_scan_order :
    (∀ b : Board, b.check_winner = check_winner_rows_first b) ∧
    (∀ (b : Board) (i j : Nat) (m m' : Player), i < b.size → j < b.size →
      uniformRow b i m = true → uniformCol b j m' = true →
      m = m' ∧ b.check_winner = some m) := by
  refine ⟨check_winner_eq_rows_first, ?_⟩
  intro b i j m m' hi hj hrow hcol
  have hmm : m = m' := by
    have h1 : cellAt b i j = some m := uniformRow_cell hrow hj
    have h2 : cellAt b i j = some m' := uniformCol_cell hcol hi
    rw [h1] at h2
    exact Option.some.inj h2
  have hpos : 0 < b.size := Nat.lt_of_le_of_lt (Nat.zero_le i) hi
  have huline : uniformLine b m = true := by
    simp only [uniformLine, Bool.or_eq_true, List.any_eq_true, List.mem_range]
    exact Or.inl (Or.inl (Or.inl ⟨i, hi, hrow⟩))
  obtain ⟨x, hx⟩ := check_winner_fires hpos huline
  have hux := check_winner_sound hx
  have hxm : x = m := by
    simp only [uniformLine, Bool.or_eq_true, List.any_eq_true,
      List.mem_range] at hux
    rcases hux with ((⟨i2, hi2, hrow2⟩ | ⟨j2, hj2, hcol2⟩) | hdiag) | hanti
    · have h1 : cellAt b i2 j = some x := uniformRow_cell hrow2 hj
      have h2 : cellAt b i2 j = some m' := uniformCol_cell hcol hi2
      rw [h1] at h2
      rw [hmm]
      exact Option.some.inj h2
    · have h1 : cellAt b i j2 = some m := uniformRow_cell hrow hj2
      have h2 : cellAt b i j2 = some x := uniformCol_cell hcol2 hi
      rw [h1] at h2
      exact (Option.some.inj h2).symm
    · have h1 : cellAt b i i = some x := uniformDiag_cell hdiag hi
      have h2 : cellAt b i i = some m := uniformRow_cell hrow hi
      rw [h1] at h2
      exact Option.some.inj h2
    · have hlt : b.size - 1 - i < b.size := by omega
      have h1 : cellAt b i (b.size - 1 - i) = some x := uniformAnti_cell hanti hi
      have h2 : cellAt b i (b.size - 1 - i) = some m := uniformRow_cell hrow hlt
      rw [h1] at h2
      exact Option.some.inj h2
  exact ⟨hmm, by rw [← hxm]; exact hx⟩

/-- Witness for C8: on a board whose top row and left column are both
uniformly `X`, the scan returns `X`. -/
theorem claim8_witness :
    (Board.mk 3 [[some Player.X, some Player.X, some Player.X],
                 [some Player.X, none, none],
                 [some Player.X, none, none]] Player.O).check_winner =
      some Player.X :=
  (claim8_scan_order.2
    (Board.mk 3 [[some Player.X, some Player.X, some Player.X],
                 [some Player.X, none, none],
                 [some Player.X, none, none]] Player.O)
    0 0 Player.X Player.X (by decide) (by decide) (by decide) (by decide)).2

/-! ## Minimax value theory (claims C9, C7, C1) -/

theorem Score.combineMax_fin (k n : Int) :
    (if (Score.fin k).lt (Score.fin n) then Score.fin n else Score.fin k) =
      Score.fin (max k n) := by
  simp only [Score.lt, decide_eq_true_eq]
  split <;> (congr 1; omega)

theorem Score.combineMin_fin (k n : Int) :
    (if (Score.fin n).lt (Score.fin k) then Score.fin n else Score.fin k) =
      Score.fin (min k n) := by
  simp only [Score.lt, decide_eq_true_eq]
  split <;> (congr 1; omega)

/-- The fold step of the reference best-play value. -/
def maxminStep (isMax : Bool) (a n : Int) : Int :=
  if isMax then max a n else min a n

theorem scanP_fin_fold (nextP : Board → Score) (current : Player) (isMax : Bool)
    (b : Board) (v : Nat × Nat → Int) :
    ∀ (l : List (Nat × Nat)) (k : Int),
    (∀ rc ∈ l, b.is_valid_move (rc.1 : Int) (rc.2 : Int) = true →
      nextP (setCell b rc.1 rc.2 (some current)) = Score.fin (v rc)) →
    minimaxScanP nextP current isMax b l (Score.fin k) =
      Score.fin (List.foldl (fun a rc => maxminStep isMax a (v rc)) k
        (l.filter (fun rc => b.is_valid_move (rc.1 : Int) (rc.2 : Int)))) := by
  intro l
  induction l with
  | nil => intro k hval; rfl
  | cons rc rest ih =>
    intro k hval
    by_cases hv : b.is_valid_move (rc.1 : Int) (rc.2 : Int) = true
    · have hnext := hval rc (List.mem_cons_self _ _) hv
      have hfc : (rc :: rest).filter
            (fun x => b.is_valid_move (x.1 : Int) (x.2 : Int)) =
          rc :: rest.filter (fun x => b.is_valid_move (x.1 : Int) (x.2 : Int)) := by
        rw [List.filter_cons]
        simp [hv]
      rw [hfc]
      simp only [minimaxScanP, hv, if_true, hnext]
      cases isMax with
      | true =>
        rw [Score.combineMax_fin, if_pos rfl]
        rw [ih (max k (v rc)) (fun x hx => hval x (List.mem_cons_of_mem _ hx))]
        rfl
      | false =>
        rw [Score.combineMin_fin, if_neg (by simp)]
        rw [ih (min k (v rc)) (fun x hx => hval x (List.mem_cons_of_mem _ hx))]
        rfl
    · rw [Bool.not_eq_true] at hv
      have hfc : (rc :: rest).filter
            (fun x => b.is_valid_move (x.1 : Int) (x.2 : Int)) =
          rest.filter (fun x => b.is_valid_move (x.1 : Int) (x.2 : Int)) := by
        rw [List.filter_cons]
        simp [hv]
      rw [hfc]
      simp only [minimaxScanP, hv, Bool.false_eq_true, if_false]
      exact ih k (fun x hx => hval x (List.mem_cons_of_mem _ hx))

theorem scanP_sentinel (nextP : Board → Score) (current : Player) (isMax : Bool)
    (b : Board) (v : Nat × Nat → Int) :
    ∀ (l : List (Nat × Nat)) (rc0 : Nat × Nat) (frest : List (Nat × Nat)),
    (∀ rc ∈ l, b.is_valid_move (rc.1 : Int) (rc.2 : Int) = true →
      nextP (setCell b rc.1 rc.2 (some current)) = Score.fin (v rc)) →
    l.filter (fun rc => b.is_valid_move (rc.1 : Int) (rc.2 : Int)) = rc0 :: frest →
    minimaxScanP nextP current isMax b l
        (if isMax then Score.ninf else Score.pinf) =
      Score.fin (List.foldl (fun a rc => maxminStep isMax a (v rc)) (v rc0) frest) := by
  intro l
  induction l with
  | nil => intro rc0 frest hval hfil; cases hfil
  | cons rc rest ih =>
    intro rc0 frest hval hfil
    by_cases hv : b.is_valid_move (rc.1 : Int) (rc.2 : Int) = true
    · have hfc : (rc :: rest).filter
            (fun x => b.is_valid_move (x.1 : Int) (x.2 : Int)) =
          rc :: rest.filter (fun x => b.is_valid_move (x.1 : Int) (x.2 : Int)) := by
        rw [List.filter_cons]
        simp [hv]
      rw [hfc] at hfil
      injection hfil with h1 h2
      subst h1
      subst h2
      have hnext := hval rc (List.mem_cons_self _ _) hv
      simp only [minimaxScanP, hv, if_true, hnext]
      have hstep : ∀ s : Score,
          (if isMax then
            (if (if isMax then Score.ninf else Score.pinf).lt s
              then s else (if isMax then Score.ninf else Score.pinf))
            else (if s.lt (if isMax then Score.ninf else Score.pinf)
              then s else (if isMax then Score.ninf else Score.pinf))) =
          (if s = Score.ninf ∧ isMax = true then Score.ninf
           else if s = Score.pinf ∧ isMax = false then Score.pinf else s) := by
        intro s
        cases isMax <;> cases s <;> simp [Score.lt]
      rw [hstep]
      have hred : (if Score.fin (v rc) = Score.ninf ∧ isMax = true then Score.ninf
          else if Score.fin (v rc) = Score.pinf ∧ isMax = false then Score.pinf
          else Score.fin (v rc)) = Score.fin (v rc) := by
        simp
      rw [hred]
      exact scanP_fin_fold nextP current isMax b v rest (v rc)
        (fun x hx => hval x (List.mem_cons_of_mem _ hx))
    · rw [Bool.not_eq_true] at hv
      have hfc : (rc :: rest).filter
            (fun x => b.is_valid_move (x.1 : Int) (x.2 : Int)) =
          rest.filter (fun x => b.is_valid_move (x.1 : Int) (x.2 : Int)) := by
        rw [List.filter_cons]
        simp [hv]
      rw [hfc] at hfil
      simp only [minimaxScanP, hv, Bool.false_eq_true, if_false]
      exact ih rc0 frest (fun x hx => hval x (List.mem_cons_of_mem _ hx)) hfil

theorem minimaxScanP_fin (nextP : Board → Score) (current : Player)
    (isMax : Bool) (b : Board) :
    ∀ (l : List (Nat × Nat)) (best : Score),
    (∀ rc ∈ l, b.is_valid_move (rc.1 : Int) (rc.2 : Int) = true →
      ∃ n, nextP (setCell b rc.1 rc.2 (some current)) = Score.fin n ∧
        -1 ≤ n ∧ n ≤ 1) →
    (best = (if isMax then Score.ninf else Score.pinf) ∨
      ∃ k, best = Score.fin k ∧ -1 ≤ k ∧ k ≤ 1) →
    ((∃ rc ∈ l, b.is_valid_move (rc.1 : Int) (rc.2 : Int) = true) ∨
      ∃ k, best = Score.fin k ∧ -1 ≤ k ∧ k ≤ 1) →
    ∃ n, minimaxScanP nextP current isMax b l best = Score.fin n ∧
      -1 ≤ n ∧ n ≤ 1 := by
  intro l
  induction l with
  | nil =>
    intro best hval hbest hsome
    rcases hsome with ⟨rc, hrc, _⟩ | ⟨k, hk, hk1, hk2⟩
    · simp at hrc
    · exact ⟨k, hk, hk1, hk2⟩
  | cons rc rest ih =>
    intro best hval hbest hsome
    by_cases hv : b.is_valid_move (rc.1 : Int) (rc.2 : Int) = true
    · obtain ⟨n, hn, hn1, hn2⟩ := hval rc (List.mem_cons_self _ _) hv
      simp only [minimaxScanP, hv, if_true, hn]
      have hbest1 : ∃ k1,
          (if isMax then (if best.lt (Score.fin n) then Score.fin n else best)
           else (if (Score.fin n).lt best then Score.fin n else best)) =
            Score.fin k1 ∧ -1 ≤ k1 ∧ k1 ≤ 1 := by
        rcases hbest with hb | ⟨k, hk, hk1, hk2⟩
        · rw [hb]
          cases isMax
          · simp only [Bool.false_eq_true, if_false, Score.lt]
            exact ⟨n, rfl, hn1, hn2⟩
          · simp only [if_true, Score.lt]
            exact ⟨n, rfl, hn1, hn2⟩
        · rw [hk]
          cases isMax
          · rw [if_neg (by simp), Score.combineMin_fin]
            exact ⟨min k n, rfl, by omega, by omega⟩
          · rw [if_pos rfl, Score.combineMax_fin]
            exact ⟨max k n, rfl, by omega, by omega⟩
      obtain ⟨k1, hk1eq, hk11, hk12⟩ := hbest1
      rw [hk1eq]
      exact ih (Score.fin k1) (fun x hx => hval x (List.mem_cons_of_mem _ hx))
        (Or.inr ⟨k1, rfl, hk11, hk12⟩) (Or.inr ⟨k1, rfl, hk11, hk12⟩)
    · rw [Bool.not_eq_true] at hv
      simp only [minimaxScanP, hv, Bool.false_eq_true, if_false]
      apply ih best (fun x hx => hval x (List.mem_cons_of_mem _ hx)) hbest
      rcases hsome with ⟨rc', hrc', hval'⟩ | hfin
      · rcases List.mem_cons.mp hrc' with rfl | hmem
        · rw [hv] at hval'
          cases hval'
        · exact Or.inl ⟨rc', hmem, hval'⟩
      · exact Or.inr hfin

theorem minimaxP_fin (mark : Player) (timeUp : Bool) :
    ∀ (fuel : Nat) (b : Board) (isMax : Bool), wf b = true →
      noneCount b ≤ fuel →
    ∃ n, minimaxP mark timeUp fuel b isMax = Score.fin n ∧ -1 ≤ n ∧ n ≤ 1 := by
  intro fuel
  induction fuel with
  | zero =>
    intro b isMax _ _
    exact ⟨0, rfl, by omega, by omega⟩
  | succ fuel ih =>
    intro b isMax hwf hfuel
    simp only [minimaxP]
    by_cases ht : timeUp = true
    · simp only [ht, if_true]
      exact ⟨0, rfl, by omega, by omega⟩
    · rw [Bool.not_eq_true] at ht
      subst ht
      simp only [Bool.false_eq_true, if_false]
      cases hw : b.check_winner with
      | some w =>
        by_cases hwm : w = mark
        · simp only [hwm, if_pos rfl]
          exact ⟨1, rfl, by omega, by omega⟩
        · simp only [if_neg hwm]
          exact ⟨-1, rfl, by omega, by omega⟩
      | none =>
        by_cases hf : b.is_full = true
        · simp only [hf, if_true]
          exact ⟨0, rfl, by omega, by omega⟩
        · rw [Bool.not_eq_true] at hf
          simp only [hf, Bool.false_eq_true, if_false]
          apply minimaxScanP_fin
          · intro rc hrc hv
            obtain ⟨hr, hc, hcell⟩ := cellAt_of_valid b rc.1 rc.2 hv
            have hwfc := wf_setCell b rc.1 rc.2
              (some (if isMax then mark else mark.other)) hwf
            have hglen : rc.1 < b.grid.length := by
              rw [(wf_iff b).mp hwf |>.1]
              exact hr
            have hrowlen : rc.2 < (b.grid.getD rc.1 []).length := by
              rw [wf_row_len b rc.1 hwf hr]
              exact hc
            have hcount := noneCount_setCell b rc.1 rc.2
              (if isMax then mark else mark.other) hglen hrowlen hcell
            exact ih _ (!isMax) hwfc (by omega)
          · exact Or.inl rfl
          · left
            obtain ⟨r, c, hr, hc, hcell⟩ := exists_empty_of_not_full b hwf hf
            refine ⟨(r, c), mem_allCells.mpr ⟨hr, hc⟩, ?_⟩
            rw [validN_eq]
            exact (validN_iff b r c).mpr ⟨hr, hc, hcell⟩

/-! ## Claim C9 -/

/-- Claim C9: for every board, both values of `is_maximizing` and any
time state, `minimax` returns a finite score in `{-1, 0, +1}` — the
`±inf` initialisation sentinels can never escape, because a non-terminal
non-full board always has an empty cell whose recursive child score
replaces the sentinel. -/
theorem claim9_minimax_range (mark : Player) (timeUp : Bool) (fuel : Nat)
    (b : Board) (isMax : Bool) (hwf : wf b = true)
    (hfuel : noneCount b ≤ fuel) :
    ∃ n : Int, (HardAIPlayer.minimax mark timeUp fuel b isMax).1 =
      Score.fin n ∧ -1 ≤ n ∧ n ≤ 1 := by
  rw [minimax_eq_pure]
  exact minimaxP_fin mark timeUp fuel b isMax hwf hfuel

/-- Witness for C9: the empty board at exactly its 9 cells of fuel. -/
theorem claim9_witness :
    ∃ n : Int, (HardAIPlayer.minimax Player.X false 9 (Board.init 3) true).1 =
      Score.fin n ∧ -1 ≤ n ∧ n ≤ 1 :=
  claim9_minimax_range Player.X false 9 (Board.init 3) true
    (by decide) (by decide)

/-! ## Root-scan invariant -/

/-- The score the root loop assigns to a candidate cell: evaluate the
child obtained by placing `mark` there. -/
def rootScore (nextP : Board → Score) (mark : Player) (b : Board)
    (rc : Nat × Nat) : Score :=
  nextP (setCell b rc.1 rc.2 (some mark))

theorem rootScanP_inv (nextP : Board → Score) (mark : Player) (b : Board) :
    ∀ (l : List (Nat × Nat)) (best : Score) (mv : Option (Nat × Nat)),
    (mv = none → best = Score.ninf) →
    (∀ p, mv = some p → b.is_valid_move (p.1 : Int) (p.2 : Int) = true ∧
      best = rootScore nextP mark b p) →
    best.le (rootScanP nextP mark b l best mv).1 = true ∧
    (∀ rc ∈ l, b.is_valid_move (rc.1 : Int) (rc.2 : Int) = true →
      (rootScore nextP mark b rc).le (rootScanP nextP mark b l best mv).1 = true) ∧
    ((rootScanP nextP mark b l best mv).2 = none →
      (rootScanP nextP mark b l best mv).1 = Score.ninf) ∧
    (∀ p, (rootScanP nextP mark b l best mv).2 = some p →
      b.is_valid_move (p.1 : Int) (p.2 : Int) = true ∧
      (rootScanP nextP mark b l best mv).1 = rootScore nextP mark b p) := by
  intro l
  induction l with
  | nil =>
    intro best mv h1 h2
    exact ⟨Score.le_refl best, by simp, h1, h2⟩
  | cons rc rest ih =>
    intro best mv h1 h2
    by_cases hv : b.is_valid_move (rc.1 : Int) (rc.2 : Int) = true
    · simp only [rootScanP, hv, if_true]
      by_cases hlt : best.lt (nextP (setCell b rc.1 rc.2 (some mark))) = true
      · simp only [hlt, if_true]
        have hih := ih (nextP (setCell b rc.1 rc.2 (some mark))) (some rc)
          (by intro h; cases h)
          (by
            intro p hp
            injection hp with hp
            subst hp
            exact ⟨hv, rfl⟩)
        obtain ⟨g1, g2, g3, g4⟩ := hih
        refine ⟨Score.le_trans (Score.le_of_lt hlt) g1, ?_, g3, g4⟩
        intro x hx hxv
        rcases List.mem_cons.mp hx with rfl | hmem
        · exact g1
        · exact g2 x hmem hxv
      · rw [Bool.not_eq_true] at hlt
        simp only [hlt, Bool.false_eq_true, if_false]
        have hih := ih best mv h1 h2
        obtain ⟨g1, g2, g3, g4⟩ := hih
        refine ⟨g1, ?_, g3, g4⟩
        intro x hx hxv
        rcases List.mem_cons.mp hx with rfl | hmem
        · exact Score.le_trans (Score.le_of_not_lt hlt) g1
        · exact g2 x hmem hxv
    · rw [Bool.not_eq_true] at hv
      simp only [rootScanP, hv, Bool.false_eq_true, if_false]
      have hih := ih best mv h1 h2
      obtain ⟨g1, g2, g3, g4⟩ := hih
      refine ⟨g1, ?_, g3, g4⟩
      intro x hx hxv
      rcases List.mem_cons.mp hx with rfl | hmem
      · rw [hv] at hxv
        cases hxv
      · exact g2 x hmem hxv

/-! ## Claim C7 -/

/-- Claim C7: on every non-full well-formed board the hard AI returns
some valid move — never `None` and never an error — under any time
state, including the one where every recursive `minimax` call is cut off
at entry and reports the neutral score 0; and on a full board it
returns `None`. -/
theorem claim7_hard_always_moves (mark : Player) (timeUp : Bool) (b : Board)
    (hwf : wf b = true) :
    (b.is_full = false →
      ∃ rc, (HardAIPlayer.choose_move mark timeUp b).1 = some rc ∧
        b.is_valid_move (rc.1 : Int) (rc.2 : Int) = true) ∧
    (b.is_full = true → (HardAIPlayer.choose_move mark timeUp b).1 = none) := by
  rw [choose_move_hard_eq]
  simp only []
  unfold choose_moveP
  have hinv := rootScanP_inv
    (fun b1 => minimaxP mark timeUp (b.size * b.size) b1 false) mark b
    (allCells b.size) Score.ninf none (fun _ => rfl) (by intro p hp; cases hp)
  obtain ⟨g1, g2, g3, g4⟩ := hinv
  constructor
  · intro hnf
    obtain ⟨r, c, hr, hc, hcell⟩ := exists_empty_of_not_full b hwf hnf
    have hv : b.is_valid_move ((r : Nat) : Int) ((c : Nat) : Int) = true := by
      rw [validN_eq]
      exact (validN_iff b r c).mpr ⟨hr, hc, hcell⟩
    have hmem : ((r, c) : Nat × Nat) ∈ allCells b.size :=
      mem_allCells.mpr ⟨hr, hc⟩
    have hscore : ∃ n, rootScore
        (fun b1 => minimaxP mark timeUp (b.size * b.size) b1 false) mark b
        (r, c) = Score.fin n ∧ -1 ≤ n ∧ n ≤ 1 := by
      unfold rootScore
      apply minimaxP_fin
      · exact wf_setCell b r c (some mark) hwf
      · have hglen : r < b.grid.length := by
          rw [(wf_iff b).mp hwf |>.1]
          exact hr
        have hrowlen : c < (b.grid.getD r []).length := by
          rw [wf_row_len b r hwf hr]
          exact hc
        have hcount := noneCount_setCell b r c mark hglen hrowlen hcell
        have hle := noneCount_le b hwf
        show noneCount (setCell b r c (some mark)) ≤ b.size * b.size
        omega
    cases hmv : (rootScanP
        (fun b1 => minimaxP mark timeUp (b.size * b.size) b1 false) mark b
        (allCells b.size) Score.ninf none).2 with
    | none =>
      exfalso
      have hninf := g3 hmv
      have hle := g2 (r, c) hmem hv
      rw [hninf] at hle
      obtain ⟨n, hn, _, _⟩ := hscore
      rw [hn] at hle
      have := Score.eq_ninf_of_le hle
      cases this
    | some p =>
      exact ⟨p, rfl, (g4 p hmv).1⟩
  · intro hfull
    have hnone : ∀ rc ∈ allCells b.size,
        b.is_valid_move (rc.1 : Int) (rc.2 : Int) = false := by
      intro rc hrc
      obtain ⟨hr, hc⟩ := mem_allCells.mp hrc
      rw [validN_eq]
      by_contra hvn
      rw [Bool.not_eq_false] at hvn
      obtain ⟨_, _, hcell⟩ := (validN_iff b rc.1 rc.2).mp hvn
      exact (is_full_spec b hwf).mp hfull rc.1 rc.2 hr hc hcell
    have : ∀ (l : List (Nat × Nat)),
        (∀ rc ∈ l, b.is_valid_move (rc.1 : Int) (rc.2 : Int) = false) →
        ∀ (best : Score) (mv : Option (Nat × Nat)),
        rootScanP (fun b1 => minimaxP mark timeUp (b.size * b.size) b1 false)
          mark b l best mv = (best, mv) := by
      intro l
      induction l with
      | nil => intro _ best mv; rfl
      | cons rc rest ih =>
        intro hall best mv
        have hv := hall rc (List.mem_cons_self _ _)
        simp only [rootScanP, hv, Bool.false_eq_true, if_false]
        exact ih (fun x hx => hall x (List.mem_cons_of_mem _ hx)) best mv
    rw [this (allCells b.size) hnone Score.ninf none]

/-! ## The search computes the specification's best-play value -/

theorem minimaxP_eq_bestVal (mark : Player) :
    ∀ (fuel : Nat) (b : Board) (isMax : Bool), wf b = true →
      noneCount b ≤ fuel →
    minimaxP mark false fuel b isMax = Score.fin (bestVal mark fuel b isMax) := by
  intro fuel
  induction fuel with
  | zero => intro b isMax _ _; rfl
  | succ fuel ih =>
    intro b isMax hwf hfuel
    simp only [minimaxP, bestVal, Bool.false_eq_true, if_false]
    cases hw : b.check_winner with
    | some w =>
      by_cases hwm : w = mark
      · simp [hwm]
      · simp [hwm]
    | none =>
      by_cases hf : b.is_full = true
      · simp [hf]
      · rw [Bool.not_eq_true] at hf
        simp only [hf, Bool.false_eq_true, if_false]
        obtain ⟨r, c, hr, hc, hcell⟩ := exists_empty_of_not_full b hwf hf
        have hvrc : b.is_valid_move ((r : Nat) : Int) ((c : Nat) : Int) = true := by
          rw [validN_eq]
          exact (validN_iff b r c).mpr ⟨hr, hc, hcell⟩
        have hvmem : ((r, c) : Nat × Nat) ∈ (allCells b.size).filter
            (fun rc => b.is_valid_move (rc.1 : Int) (rc.2 : Int)) := by
          rw [List.mem_filter]
          exact ⟨mem_allCells.mpr ⟨hr, hc⟩, hvrc⟩
        cases hfil : (allCells b.size).filter
            (fun rc => b.is_valid_move (rc.1 : Int) (rc.2 : Int)) with
        | nil =>
          rw [hfil] at hvmem
          simp at hvmem
        | cons rc0 frest =>
          have hval : ∀ rc ∈ allCells b.size,
              b.is_valid_move (rc.1 : Int) (rc.2 : Int) = true →
              minimaxP mark false fuel
                  (setCell b rc.1 rc.2
                    (some (if isMax then mark else mark.other))) (!isMax) =
                Score.fin (bestVal mark fuel
                  (setCell b rc.1 rc.2
                    (some (if isMax then mark else mark.other))) (!isMax)) := by
            intro rc hrc hv
            obtain ⟨hr', hc', hcell'⟩ := cellAt_of_valid b rc.1 rc.2 hv
            have hglen : rc.1 < b.grid.length := by
              rw [(wf_iff b).mp hwf |>.1]
              exact hr'
            have hrowlen : rc.2 < (b.grid.getD rc.1 []).length := by
              rw [wf_row_len b rc.1 hwf hr']
              exact hc'
            have hcount := noneCount_setCell b rc.1 rc.2
              (if isMax then mark else mark.other) hglen hrowlen hcell'
            exact ih _ (!isMax)
              (wf_setCell b rc.1 rc.2 _ hwf) (by omega)
          rw [scanP_sentinel
            (fun b1 => minimaxP mark false fuel b1 (!isMax))
            (if isMax then mark else mark.other) isMax b
            (fun rc => bestVal mark fuel
              (setCell b rc.1 rc.2
                (some (if isMax then mark else mark.other))) (!isMax))
            (allCells b.size) rc0 frest hval hfil]
          congr 1
          simp only [List.map_cons]
          rw [List.foldl_map]
          rfl

/-- Boards reachable through the public `make_move` API keep the class
invariant and the 3×3 dimension. -/
theorem reachable_wf {b : Board} (h : Reachable b) :
    wf b = true ∧ b.size = 3 := by
  induction h with
  | init => exact ⟨wf_init 3, rfl⟩
  | move b row col hb ih =>
    by_cases hv : b.is_valid_move row col = true
    · rw [make_move_valid b row col hv]
      exact ⟨wf_setCell b row.toNat col.toNat (some b.turn) ih.1, ih.2⟩
    · rw [Bool.not_eq_true] at hv
      rw [make_move_invalid b row col hv]
      exact ih

/-! ## Claim C1 -/

/-- Claim C1: from every position reachable by legal play that still has
an empty cell, the hard AI with no time limit returns a move whose
best-play value (computed by the specification-side `bestVal`) is
maximal among all legal moves; in particular, whenever some non-losing
move exists, the returned move is non-losing — the AI never walks into a
forced loss when it can avoid one. -/
theorem claim1_minimax_never_loses (mark : Player) (b : Board)
    (hreach : Reachable b) (hne : b.is_full = false) :
    ∃ rc, (HardAIPlayer.choose_move mark false b).1 = some rc ∧
      (∀ rc', rc' ∈ allCells b.size →
        b.is_valid_move (rc'.1 : Int) (rc'.2 : Int) = true →
        bestVal mark (b.size * b.size)
            (setCell b rc'.1 rc'.2 (some mark)) false ≤
          bestVal mark (b.size * b.size)
            (setCell b rc.1 rc.2 (some mark)) false) ∧
      ((∃ rc', rc' ∈ allCells b.size ∧
          b.is_valid_move (rc'.1 : Int) (rc'.2 : Int) = true ∧
          0 ≤ bestVal mark (b.size * b.size)
            (setCell b rc'.1 rc'.2 (some mark)) false) →
        0 ≤ bestVal mark (b.size * b.size)
          (setCell b rc.1 rc.2 (some mark)) false) := by
  have hwf := (reachable_wf hreach).1
  rw [choose_move_hard_eq]
  simp only []
  unfold choose_moveP
  have hscores : ∀ rc ∈ allCells b.size,
      b.is_valid_move (rc.1 : Int) (rc.2 : Int) = true →
      rootScore (fun b1 => minimaxP mark false (b.size * b.size) b1 false)
          mark b rc =
        Score.fin (bestVal mark (b.size * b.size)
          (setCell b rc.1 rc.2 (some mark)) false) := by
    intro rc hrc hv
    obtain ⟨hr', hc', hcell'⟩ := cellAt_of_valid b rc.1 rc.2 hv
    have hglen : rc.1 < b.grid.length := by
      rw [(wf_iff b).mp hwf |>.1]
      exact hr'
    have hrowlen : rc.2 < (b.grid.getD rc.1 []).length := by
      rw [wf_row_len b rc.1 hwf hr']
      exact hc'
    have hcount := noneCount_setCell b rc.1 rc.2 mark hglen hrowlen hcell'
    have hle := noneCount_le b hwf
    unfold rootScore
    apply minimaxP_eq_bestVal
    · exact wf_setCell b rc.1 rc.2 (some mark) hwf
    · show noneCount (setCell b rc.1 rc.2 (some mark)) ≤ b.size * b.size
      omega
  have hinv := rootScanP_inv
    (fun b1 => minimaxP mark false (b.size * b.size) b1 false) mark b
    (allCells b.size) Score.ninf none (fun _ => rfl) (by intro p hp; cases hp)
  obtain ⟨g1, g2, g3, g4⟩ := hinv
  obtain ⟨r, c, hr, hc, hcell⟩ := exists_empty_of_not_full b hwf hne
  have hvrc : b.is_valid_move ((r : Nat) : Int) ((c : Nat) : Int) = true := by
    rw [validN_eq]
    exact (validN_iff b r c).mpr ⟨hr, hc, hcell⟩
  have hmem : ((r, c) : Nat × Nat) ∈ allCells b.size := mem_allCells.mpr ⟨hr, hc⟩
  cases hmv : (rootScanP
      (fun b1 => minimaxP mark false (b.size * b.size) b1 false) mark b
      (allCells b.size) Score.ninf none).2 with
  | none =>
    exfalso
    have hninf := g3 hmv
    have hle := g2 (r, c) hmem hvrc
    rw [hninf, hscores (r, c) hmem hvrc] at hle
    have := Score.eq_ninf_of_le hle
    cases this
  | some p =>
    obtain ⟨hpv, hpscore⟩ := g4 p hmv
    refine ⟨p, rfl, ?_, ?_⟩
    · intro rc' hrc' hvrc'
      have hle := g2 rc' hrc' hvrc'
      rw [hpscore, hscores rc' hrc' hvrc', hscores p (
        by
          obtain ⟨hpr, hpc, _⟩ := cellAt_of_valid b p.1 p.2 hpv
          exact mem_allCells.mpr ⟨hpr, hpc⟩) hpv] at hle
      exact Score.fin_le_fin.mp hle
    · rintro ⟨rc', hrc', hvrc', hnl⟩
      have hle := g2 rc' hrc' hvrc'
      rw [hpscore, hscores rc' hrc' hvrc', hscores p (
        by
          obtain ⟨hpr, hpc, _⟩ := cellAt_of_valid b p.1 p.2 hpv
          exact mem_allCells.mpr ⟨hpr, hpc⟩) hpv] at hle
      have := Score.fin_le_fin.mp hle
      omega

/-- Witness for C1: the fresh 3×3 board (reached by zero moves). -/
theorem claim1_witness :
    ∃ rc, (HardAIPlayer.choose_move Player.X false (Board.init 3)).1 =
        some rc ∧
      (∀ rc', rc' ∈ allCells (Board.init 3).size →
        (Board.init 3).is_valid_move (rc'.1 : Int) (rc'.2 : Int) = true →
        bestVal Player.X ((Board.init 3).size * (Board.init 3).size)
            (setCell (Board.init 3) rc'.1 rc'.2 (some Player.X)) false ≤
          bestVal Player.X ((Board.init 3).size * (Board.init 3).size)
            (setCell (Board.init 3) rc.1 rc.2 (some Player.X)) false) ∧
      ((∃ rc', rc' ∈ allCells (Board.init 3).size ∧
          (Board.init 3).is_valid_move (rc'.1 : Int) (rc'.2 : Int) = true ∧
          0 ≤ bestVal Player.X ((Board.init 3).size * (Board.init 3).size)
            (setCell (Board.init 3) rc'.1 rc'.2 (some Player.X)) false) →
        0 ≤ bestVal Player.X ((Board.init 3).size * (Board.init 3).size)
          (setCell (Board.init 3) rc.1 rc.2 (some Player.X)) false) :=
  claim1_minimax_never_loses Player.X (Board.init 3) Reachable.init (by decide)

/-- Witness for C7: a non-full board with every `minimax` call cut off
still yields a valid move. -/
theorem claim7_witness :
    ∃ rc, (HardAIPlayer.choose_move Player.O true
        (Board.mk 3 [[some Player.X, none, none],
                     [none, none, none],
                     [none, none, none]] Player.O)).1 = some rc ∧
      (Board.mk 3 [[some Player.X, none, none],
                   [none, none, none],
                   [none, none, none]] Player.O).is_valid_move
        (rc.1 : Int) (rc.2 : Int) = true :=
  (claim7_hard_always_moves Player.O true
    (Board.mk 3 [[some Player.X, none, none],
                 [none, none, none],
                 [none, none, none]] Player.O) (by decide)).1 (by decide)

end TTT
